import Mathlib

/-!
Verification of the `multidim` library (FlatView / BoxedView over nested ranges).

The C++ source is a family of templates instantiated once per nesting depth:
a container of dimensionality `n+1` is a range whose elements have
dimensionality `n`.  We embed this shallowly:

* `Nested α n` is the type of a nested container of dimensionality `n`
  (`Nested α 0 = α`, `Nested α (n+1) = List (Nested α n)`); this mirrors the
  static typing of the C++ templates, where all sibling subranges at the same
  depth necessarily share their dimensionality.
* Raw iterators (`RawIterator`, `begin_`/`current_`/`end_`) are modelled as a
  stored list together with a numeric offset; pointer equality of raw
  iterators of one view corresponds to equality of the stored list and offset.
* Functions that `throw` in the source return `Except MdErr` here; functions
  with no failure path are total.
* `size_t` values are modelled as `Nat`, or as `Int` where the source uses the
  wrap-around value `static_cast<size_t>(-1)` as an explicit sentinel
  (`BoxedViewIterator::index_`); every comparison that the source performs on
  such a value in unsigned arithmetic is spelled out accordingly at its use
  site (see the comments there).
-/

namespace multidim

/-- Error conditions of the library (`std::runtime_error` messages in the source). -/
inductive MdErr where
  /-- "FlatViewIterator: access out of bounds" / "BoxedViewIterator: access out of bounds" -/
  | outOfBounds : MdErr
  /-- "bounds : encountered Container with strange dimensionality" -/
  | shapeMismatch : MdErr
  /-- "makeBoxedView : limit list has false size" -/
  | boundsMismatch : MdErr
deriving DecidableEq, Repr

/-- A nested container of dimensionality `n` over scalars `α`:
`Nested α 0 = α` and `Nested α (n+1) = List (Nested α n)`.
This is the shallow embedding of the statically-typed nesting of the source
(`vector<vector<...<T>...>>`). -/
@[reducible] def Nested (α : Type) : Nat → Type
  | 0 => α
  | n + 1 => List (Nested α n)

/-- `Nested α (n+1)` is definitionally a list; this helper names the coercion. -/
def nlist {α : Type} {n : Nat} (x : Nested α (n + 1)) : List (Nested α n) := x

def nestedDecEq {α : Type} [DecidableEq α] : (n : Nat) → DecidableEq (Nested α n)
  | 0 => (inferInstance : DecidableEq α)
  | n + 1 =>
    letI := nestedDecEq (α := α) n
    (inferInstance : DecidableEq (List (Nested α n)))

instance {α : Type} [DecidableEq α] {n : Nat} : DecidableEq (Nested α n) := nestedDecEq n

/-- The leaves of a nested container, in depth-first left-to-right order. -/
def flattenN {α : Type} : {n : Nat} → Nested α n → List α
  | 0, a => [a]
  | _ + 1, xs => List.flatten (List.map flattenN (nlist xs))

/-- Depth-first leaves of a list of nested containers. -/
def flatL {α : Type} {n : Nat} (l : List (Nested α n)) : List α :=
  List.flatten (List.map flattenN l)

theorem flattenN_succ {α : Type} {n : Nat} (xs : List (Nested α n)) :
    flattenN (n := n + 1) xs = flatL xs := rfl

/-- `scalarSize` (src/Basics.h): the number of scalar elements of a container.
The monolevel overload returns the distance of the range; the multilevel
overload accumulates `scalarSize` of each subcontainer. -/
def scalarSize {α : Type} : {n : Nat} → Nested α n → Nat
  | 0, _ => 1
  | 1, xs => List.length (nlist xs)
  | _ + 2, xs => List.foldl (fun acc sub => acc + scalarSize sub) 0 (nlist xs)

-- ***************************************************************************
-- FlatViewIterator (src/FlatView.h)
-- ***************************************************************************

/-- The state of a `FlatViewIterator` over a range of dimensionality `n+1`
(i.e. a `Nested α (n+1)`).  The source's `begin_`/`end_` raw iterators are the
stored list; `current_` is the offset `cur`.
* `leaf` is the specialization for a `RawIterator` pointing to a scalar:
  fields `valid_`, `current_`.
* `node` is the specialization for a `RawIterator` pointing to a subcontainer:
  fields `current_` and the owned `child_` iterator (the `child_` may be stale
  when the iterator is invalid, exactly as in the source, where `equal` then
  ignores it). -/
inductive FVIter (α : Type) : Nat → Type where
  | leaf (xs : List α) (valid : Bool) (cur : Nat) : FVIter α 0
  | node {n : Nat} (xs : List (Nested α (n + 1))) (cur : Nat) (child : FVIter α n) :
      FVIter α (n + 1)

/-- The default-constructed iterator (`begin_ = current_ = end_ = nullptr`,
`valid_ = false`, default-constructed child). -/
def fvDefault (α : Type) : (n : Nat) → FVIter α n
  | 0 => .leaf [] false 0
  | n + 1 => .node [] 0 (fvDefault α n)

/-- `valid()`:
leaf: the `valid_` flag; node: `(current_ < end_) && child_.valid()`. -/
def fvValid {α : Type} : {n : Nat} → FVIter α n → Bool
  | _, .leaf _ v _ => v
  | _, .node xs cur child => decide (cur < xs.length) && fvValid child

/-- `dereference()`: throws (`none`) when invalid, otherwise the current scalar
(delegating through the child chain). -/
def fvDeref {α : Type} : {n : Nat} → FVIter α n → Option α
  | _, .leaf xs v cur => if v then xs.get? cur else none
  | _, .node xs cur child =>
    if fvValid (FVIter.node xs cur child) then fvDeref child else none

/-- `equal()`: raw markers must match; children are compared only when both
iterators are valid. Needs decidable equality of the element type because the
raw markers of our model are the ranges themselves. -/
def fvEqual {α : Type} [DecidableEq α] : {n : Nat} → FVIter α n → FVIter α n → Bool
  | _, .leaf xs v cur, .leaf xs' v' cur' =>
    decide (xs = xs') && (v == v') && (cur == cur')
  | _, .node xs cur child, .node xs' cur' child' =>
    decide (xs = xs') && (cur == cur') &&
      ((!fvValid (FVIter.node xs cur child) && !fvValid (FVIter.node xs' cur' child')) ||
       (fvValid (FVIter.node xs cur child) && fvValid (FVIter.node xs' cur' child') &&
        fvEqual child child'))

/-- The forward-seek loop of `FlatViewIterator::increment`:
starting at offset `cur` (with the still-unseen elements `pending = xs.drop cur`),
build a begin-iterator (`mk`) on each element until a valid one is found or the
raw end is reached; returns the final `current_` and `child_`. -/
def fvSeekF {α : Type} {n : Nat} (mk : Nested α (n + 1) → FVIter α n) :
    List (Nested α (n + 1)) → Nat → FVIter α n → Nat × FVIter α n
  | [], cur, child => (cur, child)
  | y :: rest, cur, child =>
    let c := mk y
    if fvValid c then (cur, c) else fvSeekF mk rest (cur + 1) c

/-- The backward-seek loop of `FlatViewIterator::decrement`:
while `current_ ≠ begin_`, step `current_` back and build an end-iterator on
the element there, immediately decremented (`step`), until a valid one is
found; returns the final `current_` and `child_`. -/
def fvSeekB {α : Type} {n : Nat} (step : Nested α (n + 1) → FVIter α n) :
    List (Nested α (n + 1)) → Nat → FVIter α n → Nat × FVIter α n
  | _, 0, child => (0, child)
  | xs, c + 1, child =>
    let ch := step (xs.getD c ([] : List (Nested α n)))
    if fvValid ch then (c, ch) else fvSeekB step xs c ch

/-- The four level-dependent operations of `FlatViewIterator` (the per-depth
template instantiation). -/
structure FVOps (α : Type) (n : Nat) where
  mkB : Nested α (n + 1) → FVIter α n
  mkE : Nested α (n + 1) → FVIter α n
  inc : FVIter α n → FVIter α n
  dec : FVIter α n → FVIter α n

/-- The operations of `FlatViewIterator`, by recursion on the dimensionality —
one instance per template instantiation of the source:
* `mkB`/`mkE` are `makeBegin`/`makeEnd` (the `Forward`/`Backward` constructors;
  `Forward` runs `increment()` resp. `seekForward` once, `Backward` does not);
* `inc`/`dec` are `increment()`/`decrement()`. -/
def fvOps (α : Type) : (n : Nat) → FVOps α n
  | 0 =>
    { mkB := fun xs => -- Forward ctor: valid_ = false, current_ = begin_; then increment()
        FVIter.leaf xs (decide (¬(0 = List.length (nlist xs)))) 0
      mkE := fun xs => -- Backward ctor: valid_ = false, current_ = end_
        FVIter.leaf xs false (List.length (nlist xs))
      inc := fun it =>
        match it with
        | .leaf xs v cur => -- if (valid_) ++current_; valid_ = !(current_ == end_);
          let cur' := if v then cur + 1 else cur
          FVIter.leaf xs (decide (¬(cur' = xs.length))) cur'
      dec := fun it =>
        match it with
        | .leaf xs _ cur => -- if (current_ == begin_) {valid_ = false; return;} --current_; valid_ = true;
          if cur = 0 then FVIter.leaf xs false 0 else FVIter.leaf xs true (cur - 1) }
  | n + 1 =>
    let L := fvOps α n
    let inc : FVIter α (n + 1) → FVIter α (n + 1) := fun it =>
      match it with
      | .node xs cur child =>
        let s :=
          if fvValid (FVIter.node xs cur child) then
            -- child_ is valid: move it forward; if exhausted, ++current_ and seek
            let c := L.inc child
            if fvValid c then (cur, c)
            else fvSeekF L.mkB (xs.drop (cur + 1)) (cur + 1) c
          else fvSeekF L.mkB (xs.drop cur) cur child
        FVIter.node xs s.1 s.2
    let dec : FVIter α (n + 1) → FVIter α (n + 1) := fun it =>
      match it with
      | .node xs cur child =>
        let s :=
          if fvValid (FVIter.node xs cur child) then
            -- child_ is valid: move it backward; if exhausted, seek backward
            let c := L.dec child
            if fvValid c then (cur, c)
            else fvSeekB (fun e => L.dec (L.mkE e)) xs cur c
          else fvSeekB (fun e => L.dec (L.mkE e)) xs cur child
        FVIter.node xs s.1 s.2
    { mkB := fun xs => inc (FVIter.node (nlist xs) 0 (fvDefault α n))
      mkE := fun xs => FVIter.node (nlist xs) (List.length (nlist xs)) (fvDefault α n)
      inc := inc
      dec := dec }

/-- `FlatViewIterator::makeBegin` over a whole container. -/
def fvMakeBegin {α : Type} {n : Nat} (x : Nested α (n + 1)) : FVIter α n := (fvOps α n).mkB x

/-- `FlatViewIterator::makeEnd` over a whole container. -/
def fvMakeEnd {α : Type} {n : Nat} (x : Nested α (n + 1)) : FVIter α n := (fvOps α n).mkE x

/-- `FlatViewIterator::increment` (`operator++`). -/
def fvInc {α : Type} {n : Nat} (it : FVIter α n) : FVIter α n := (fvOps α n).inc it

/-- `FlatViewIterator::decrement` (`operator--`). -/
def fvDec {α : Type} {n : Nat} (it : FVIter α n) : FVIter α n := (fvOps α n).dec it

/-- Forward iteration of a FlatView (`for (it = begin; it != end; ++it) use(*it)`):
collect the dereferenced values while the iterator is valid; `fuel` bounds the
number of steps (the theorems below show that `scalarSize` steps suffice and
that any surplus fuel is unused). -/
def fvRun {α : Type} {n : Nat} : Nat → FVIter α n → List α
  | 0, _ => []
  | fuel + 1, it =>
    if fvValid it then (fvDeref it).toList ++ fvRun fuel (fvInc it) else []

/-- The dereference sequence of the forward iteration of `FlatView` over `x`. -/
def fvSeq {α : Type} {n : Nat} (x : Nested α (n + 1)) : List α :=
  fvRun (scalarSize x) (fvMakeBegin x)

/-- Reverse iteration (`rbegin()`/`rend()`): starting from an iterator,
repeatedly decrement and dereference while the decremented iterator is valid. -/
def fvRunBack {α : Type} {n : Nat} : Nat → FVIter α n → List α
  | 0, _ => []
  | fuel + 1, it =>
    let it' := fvDec it
    if fvValid it' then (fvDeref it').toList ++ fvRunBack fuel it' else []

-- ***************************************************************************
-- FlatView equality (`FlatView::operator==`) and concrete example containers
-- ***************************************************************************

/-- The `std::equal(begin(), end(), other.begin())` walk used by
`FlatView::operator==`: lock-step comparison of dereferenced values until the
first view reaches its end (its iterator becomes invalid); `fuel` bounds the
walk (the size guard of `operator==` ensures `fuel = size()` steps suffice). -/
def fvSeqEqual {α : Type} [DecidableEq α] {n m : Nat} : Nat → FVIter α n → FVIter α m → Bool
  | 0, _, _ => true
  | fuel + 1, it, jt =>
    if fvValid it then
      decide (fvDeref it = fvDeref jt) && fvSeqEqual fuel (fvInc it) (fvInc jt)
    else true

/-- `FlatView::operator==`:
`(size() == other.size()) && std::equal(begin(), end(), other.begin())`,
where `size()` is the scalar count of the underlying range. -/
def fvViewEq {α : Type} [DecidableEq α] {n m : Nat}
    (x : Nested α (n + 1)) (y : Nested α (m + 1)) : Bool :=
  decide (scalarSize x = scalarSize y) &&
    fvSeqEqual (scalarSize x) (fvMakeBegin x) (fvMakeBegin y)

/-- The jagged example container `{{},{1,2,3},{4},{},{},{5,6}}` of the spec
and the test suite. -/
def uriahFuller : Nested Nat 2 := [[], [1, 2, 3], [4], [], [], [5, 6]]

/-- A differently arranged container with the same leaves in the same order:
`{{1},{2,3},{},{},{},{4,5,6}}`. -/
def uriahFullerAlt : Nested Nat 2 := [[1], [2, 3], [], [], [], [4, 5, 6]]

-- ***************************************************************************
-- `bounds` (src/Basics.h): typed version and its specification
-- ***************************************************************************

instance {ε α : Type} [DecidableEq ε] [DecidableEq α] : DecidableEq (Except ε α) := fun x y =>
  match x, y with
  | .error e, .error f =>
    if h : e = f then .isTrue (by rw [h]) else .isFalse (fun hc => h (by injection hc))
  | .error _, .ok _ => .isFalse (fun hc => Except.noConfusion hc)
  | .ok _, .error _ => .isFalse (fun hc => Except.noConfusion hc)
  | .ok a, .ok b =>
    if h : a = b then .isTrue (by rw [h]) else .isFalse (fun hc => h (by injection hc))

/-- The child loop of the multilevel `bounds` overload (src/Basics.h): for each
child, recursively compute its bounds (errors propagate), check the guard
`subContainerBounds.size() != rangeDimensionality-1` (throwing
`"bounds : encountered Container with strange dimensionality"`, the
ShapeMismatch condition), copy the first child's bounds (`acc = none` plays
`it == first`), and take the elementwise maximum on every later child. An
empty range leaves the zero-initialised `containerBounds` untouched
(`List.replicate dm1 0`). -/
def boundsLoop {β : Type} (bnds : β → Except MdErr (List Nat)) (dm1 : Nat) :
    Option (List Nat) → List β → Except MdErr (List Nat)
  | none, [] => .ok (List.replicate dm1 0)
  | some a, [] => .ok a
  | none, c :: rest =>
    (bnds c).bind fun cb =>
      if cb.length ≠ dm1 then .error .shapeMismatch
      else boundsLoop bnds dm1 (some cb) rest
  | some a, c :: rest =>
    (bnds c).bind fun cb =>
      if cb.length ≠ dm1 then .error .shapeMismatch
      else boundsLoop bnds dm1 (some (List.zipWith max a cb)) rest

/-- `bounds` (src/Basics.h) over the typed nested ranges: the monolevel
overload returns `{distance}`; the multilevel overload sets
`containerBounds[0]` to the range length and fills the deeper entries through
`boundsLoop`. Depth `0` (a scalar) is never reached by the source dispatch;
its bounds vector is the empty one, as used by the guard arithmetic. -/
def boundsN {α : Type} : {n : Nat} → Nested α n → Except MdErr (List Nat)
  | 0, _ => .ok []
  | 1, xs => .ok [xs.length]
  | n + 2, xs =>
    (boundsLoop (boundsN (n := n + 1)) (n + 1) none xs).bind fun sub =>
      .ok (xs.length :: sub)

/-- The specification's description of `bounds`: element 0 is the exact range
length, each deeper element is the elementwise maximum of the children's
bounds (zero when there is no child). Stated from the spec's words, to be
compared with `boundsN`, the translation of the source. -/
def specBounds {α : Type} : {n : Nat} → Nested α n → List Nat
  | 0, _ => []
  | 1, xs => [xs.length]
  | n + 2, xs =>
    xs.length ::
      xs.foldl (fun a c => List.zipWith max a (specBounds (n := n + 1) c))
        (List.replicate (n + 1) 0)

/-- Decidable statement that every entry of `l` has bounds of length `dm1`
under the bounds function `bnds`. -/
def boundsLenOk {β : Type} (bnds : β → Except MdErr (List Nat)) (dm1 : Nat)
    (l : List β) : Bool :=
  l.all fun p =>
    match bnds p with
    | .ok b => decide (b.length = dm1)
    | .error _ => false

-- ***************************************************************************
-- Untyped nested ranges: the runtime reflection of the template dispatch
-- ***************************************************************************

/-- An untyped nested structure. The C++ template dispatch of `bounds` is
driven by static types, under which sibling subranges always agree on
dimensionality, so the ShapeMismatch guard cannot fire in well-typed calls;
`RTree` is the runtime reflection of that dispatch, where siblings may
disagree on nesting depth and the guard becomes reachable. -/
inductive RTree (α : Type) where
  | scalar (a : α)
  | range (children : List (RTree α))

/-- `dimensionality` reflected on `RTree`: a scalar has dimensionality 0, a
range has 1 plus the dimensionality of its element type, read off the first
child (the static element type of the C++ range). -/
def rtDim {α : Type} : RTree α → Nat
  | .scalar _ => 0
  | .range [] => 1
  | .range (c :: _) => 1 + rtDim c

mutual
/-- `bounds` (src/Basics.h) on the untyped reflection: monolevel ranges
(dimensionality 1) return `{distance}`; multilevel ranges run the child loop
of the source with the guard
`subContainerBounds.size() != rangeDimensionality-1`. -/
def rtBounds {α : Type} : RTree α → Except MdErr (List Nat)
  | .scalar _ => .ok []
  | .range cs =>
    if rtDim (.range cs) ≤ 1 then .ok [cs.length]
    else
      (rtBoundsFold (rtDim (.range cs) - 1) none cs).bind fun sub =>
        .ok (cs.length :: sub)

/-- The child loop of `rtBounds`; same shape as `boundsLoop`. -/
def rtBoundsFold {α : Type} (dm1 : Nat) :
    Option (List Nat) → List (RTree α) → Except MdErr (List Nat)
  | none, [] => .ok (List.replicate dm1 0)
  | some a, [] => .ok a
  | none, c :: rest =>
    (rtBounds c).bind fun cb =>
      if cb.length ≠ dm1 then .error .shapeMismatch
      else rtBoundsFold dm1 (some cb) rest
  | some a, c :: rest =>
    (rtBounds c).bind fun cb =>
      if cb.length ≠ dm1 then .error .shapeMismatch
      else rtBoundsFold dm1 (some (List.zipWith max a cb)) rest
end

-- ***************************************************************************
-- The type-level traits (src/Basics.h): IsScalar and Dimensionality
-- ***************************************************************************

/-- A C++ type as seen by the library's type traits: a non-range scalar
(`int`, ...), `std::string` (a range of characters), `std::vector<t>`, or
`std::list<t>`. -/
inductive CTy where
  | base
  | str
  | vec (t : CTy)
  | lst (t : CTy)
deriving DecidableEq, Repr

/-- `IsRange<T>::value`: whether `begin(T)`/`end(T)` exist (strings are
ranges of characters). -/
def isRange : CTy → Bool
  | .base => false
  | .str => true
  | .vec _ => true
  | .lst _ => true

/-- The value type of a range's iterator, with reference-ness stripped
(`std::iterator_traits<IteratorType<T>::type>::reference`, decayed):
the element type of a container, `char`-like `base` for strings. -/
def elemType : CTy → CTy
  | .base => .base
  | .str => .base
  | .vec t => t
  | .lst t => t

/-- A custom scalar classifier (`CustomScalarTrait<T>::isCustomScalar`). -/
def NoCustomScalars : CTy → Bool := fun _ => false

/-- `StringsAsScalars`: classifies `std::string`/`std::wstring` as scalars. -/
def StringsAsScalars : CTy → Bool := fun t => decide (t = .str)

/-- `IsScalar<Trait, T>::value = !IsRange<T>::value || Trait<T>::isCustomScalar`. -/
def IsScalar (C : CTy → Bool) (t : CTy) : Bool := !isRange t || C t

/-- `Dimensionality<Trait, T>::value`: 0 on scalars, else 1 plus the
dimensionality of the element type (the two template specializations of
src/Basics.h, written per constructor to make the recursion structural). -/
def Dimensionality (C : CTy → Bool) : CTy → Nat
  | .base => 0
  | .str => if C .str then 0 else 1
  | .vec t => if C (.vec t) then 0 else 1 + Dimensionality C t
  | .lst t => if C (.lst t) then 0 else 1 + Dimensionality C t

/-- A tower of sequence containers over a base type: each Boolean picks
`vector` or `list` for one nesting level. -/
def applyTower : List Bool → CTy → CTy
  | [], t => t
  | b :: w, t => if b then .vec (applyTower w t) else .lst (applyTower w t)

-- ***************************************************************************
-- BoxedView (src/unnamed/part_005): iterator state, scalar proxy, factory
-- ***************************************************************************

/-- `BoxedViewIterator` state over a range of depth-`k` elements (the iterator
of a `BoxedView` of dimensionality `k+1`): `current_` is kept as the offset
`cur` from `first` (so `physicalBound_` is `xs.length`); `index_` is a
`size_t` whose sentinel `ONE_BEFORE_THE_FIRST = (size_t)(-1)` is modelled as
the integer `-1`, with every unsigned comparison of the source spelled out on
`Int` at its use site; `apparentBounds_` is the bounds array from this level
down; `defaultValue_` is the shared default. -/
structure BVIter (α : Type) (k : Nat) where
  xs : List (Nested α k)
  cur : Int
  apparent : List Nat
  index : Int
  dflt : α

/-- The `Forward` private constructor (used by `makeBegin`): `current_ = first`,
`index_ = 0`. -/
def bvMakeBegin {α : Type} {k : Nat} (xs : List (Nested α k)) (apparent : List Nat)
    (d : α) : BVIter α k :=
  ⟨xs, 0, apparent, 0, d⟩

/-- The `Backward` private constructor (used by `makeEnd`): `current_ = last`,
`index_ = apparentBounds[0]`, then `current_` is walked back to the apparent
end when `apparentBounds[0] < physicalBound_` — leaving `current_` at
`min apparentBounds[0] physicalBound_`. -/
def bvMakeEnd {α : Type} {k : Nat} (xs : List (Nested α k)) (apparent : List Nat)
    (d : α) : BVIter α k :=
  ⟨xs, min (apparent.headD 0 : Int) (xs.length : Int), apparent,
    (apparent.headD 0 : Int), d⟩

/-- `BoxedViewIterator::increment`: throws `"BoxedViewIterator: access out of
bounds"` at `index_ == apparentBounds_[0]`; otherwise `++current_` when
`index_ < physicalBound_` — an unsigned comparison, false at
`ONE_BEFORE_THE_FIRST`, hence the spelled-out `0 ≤ index` — and `++index_`
(the unsigned wrap `ONE_BEFORE_THE_FIRST + 1 = 0` coincides with `-1 + 1`). -/
def bvInc {α : Type} {k : Nat} (it : BVIter α k) : Except MdErr (BVIter α k) :=
  if it.index = (it.apparent.headD 0 : Int) then .error .outOfBounds
  else .ok { it with
    cur := if 0 ≤ it.index ∧ it.index < (it.xs.length : Int) then it.cur + 1 else it.cur
    index := it.index + 1 }

/-- `BoxedViewIterator::decrement`: throws at `index_ == ONE_BEFORE_THE_FIRST`;
otherwise `--current_` when `index_ > 0 && index_ <= physicalBound_` and
`--index_` (the wrap `0 - 1 = ONE_BEFORE_THE_FIRST` coincides with `-1`). -/
def bvDec {α : Type} {k : Nat} (it : BVIter α k) : Except MdErr (BVIter α k) :=
  if it.index = -1 then .error .outOfBounds
  else .ok { it with
    cur := if 0 < it.index ∧ it.index ≤ (it.xs.length : Int) then it.cur - 1 else it.cur
    index := it.index - 1 }

/-- `BoxedViewIterator::advance` (random-access version): the guard compares
`(difference_type)index_ + n` — exactly `index + n` here — against
`apparentBounds_[0]` and `-1`. The clamp `index_ + n > physicalBound_` is an
unsigned comparison whose sum wraps to `2^64-1` when `index + n = -1`, so that
case lands in the clamp branch too; `index_ + n < 0` is never true on unsigned
values (dead branch, omitted); `current_ += physicalBound_ - index_` agrees
with the integer `len - index` in every reachable case, wrap included. -/
def bvAdvance {α : Type} {k : Nat} (n : Int) (it : BVIter α k) :
    Except MdErr (BVIter α k) :=
  if it.index + n > (it.apparent.headD 0 : Int) ∨ it.index + n < -1 then
    .error .outOfBounds
  else if it.index + n > (it.xs.length : Int) ∨ it.index + n = -1 then
    .ok { it with cur := it.cur + ((it.xs.length : Int) - it.index), index := it.index + n }
  else
    .ok { it with cur := it.cur + n, index := it.index + n }

/-- `BoxedViewScalarProxy`: the raw target (container plus offset), the shared
default, and the validity flag. -/
structure BVProxy (α : Type) where
  xs : List α
  pos : Nat
  dflt : α
  valid : Bool

/-- The proxy's conversion operator: `*target_` when valid, else
`*defaultValue_`. -/
def proxyGet {α : Type} (p : BVProxy α) : α :=
  if p.valid then p.xs.getD p.pos p.dflt else p.dflt

/-- The proxy's `operator=`: `if (valid_) *target_ = rhs;` — the resulting
underlying container; an invalid proxy leaves it untouched and signals
nothing (the operator has no throw path). -/
def proxySet {α : Type} (p : BVProxy α) (v : α) : List α :=
  if p.valid then p.xs.set p.pos v else p.xs

/-- `BoxedViewIterator::dereference`, version for `dimensionality_ > 1`:
throws at `ONE_BEFORE_THE_FIRST` and at the apparent bound; below the
physical bound it returns `makeBegin` of the current subcontainer with the
bounds list shifted (`apparentBounds_ + 1`), otherwise `makeBegin` of a
default-constructed (empty) range. -/
def bvDerefChild {α : Type} {k : Nat} (it : BVIter α (k + 1)) :
    Except MdErr (BVIter α k) :=
  if it.index = -1 ∨ it.index = (it.apparent.headD 0 : Int) then .error .outOfBounds
  else if 0 ≤ it.index ∧ it.index < (it.xs.length : Int) then
    .ok (bvMakeBegin (it.xs.getD it.cur.toNat []) it.apparent.tail it.dflt)
  else
    .ok (bvMakeBegin [] it.apparent.tail it.dflt)

/-- `BoxedViewIterator::dereference`, version for `dimensionality_ == 1`:
throws at `ONE_BEFORE_THE_FIRST` and at the apparent bound; returns a proxy
to `current_`, valid exactly when `index_ < physicalBound_`. -/
def bvDerefProxy {α : Type} (it : BVIter α 0) : Except MdErr (BVProxy α) :=
  if it.index = -1 ∨ it.index = (it.apparent.headD 0 : Int) then .error .outOfBounds
  else if 0 ≤ it.index ∧ it.index < (it.xs.length : Int) then
    .ok ⟨it.xs, it.cur.toNat, it.dflt, true⟩
  else
    .ok ⟨it.xs, it.cur.toNat, it.dflt, false⟩

/-- Reading the coordinate `is` from an iterator: each step is
`operator[](i) = *(*this + i)`, i.e. `advance` followed by `dereference`;
at the innermost level the scalar is read through the proxy. -/
def bvRead {α : Type} : {k : Nat} → BVIter α k → List Nat → Except MdErr α
  | 0, it, is =>
    (bvAdvance (is.headD 0 : Int) it).bind fun jt =>
      (bvDerefProxy jt).bind fun p => .ok (proxyGet p)
  | _ + 1, it, is =>
    (bvAdvance (is.headD 0 : Int) it).bind fun jt =>
      (bvDerefChild jt).bind fun child => bvRead child is.tail

/-- A `BoxedView` of dimensionality `k+1`: the range, the apparent bounds
array and the shared default value. -/
structure BView (α : Type) (k : Nat) where
  xs : List (Nested α k)
  apparent : List Nat
  dflt : α

/-- `makeBoxedView(range, defaultValue, apparentBounds)` (list-of-bounds
overload): an empty bounds argument selects the natural bounds computed by
`bounds`; a non-empty one whose length differs from the range's
dimensionality throws `"makeBoxedView : limit list has false size"` (the
BoundsMismatch condition) before any view is constructed. -/
def makeBoxedView {α : Type} {k : Nat} (xs : Nested α (k + 1)) (d : α)
    (apparentBounds : List Nat) : Except MdErr (BView α k) :=
  if apparentBounds.isEmpty then
    (boundsN xs).map fun nb => ⟨xs, nb, d⟩
  else if apparentBounds.length ≠ k + 1 then .error .boundsMismatch
  else .ok ⟨xs, apparentBounds, d⟩

/-- `BoxedView::begin()`. -/
def bvBegin {α : Type} {k : Nat} (v : BView α k) : BVIter α k :=
  bvMakeBegin v.xs v.apparent v.dflt

/-- `BoxedView::end()`. -/
def bvEnd {α : Type} {k : Nat} (v : BView α k) : BVIter α k :=
  bvMakeEnd v.xs v.apparent v.dflt

/-- `FlatViewIterator::dereference` with its throw made explicit:
`if (!valid()) throw "FlatViewIterator: access out of bounds"` (the
OutOfBounds condition), otherwise the current scalar. -/
def fvDerefE {α : Type} {n : Nat} (it : FVIter α n) : Except MdErr α :=
  match fvDeref it with
  | some a => .ok a
  | none => .error .outOfBounds

/-- Concrete iterator states used by the closed instance theorems below. -/
def bvPadIter : BVIter Nat 2 := ⟨[], 0, [3, 2], 0, 42⟩

def bvLeafIter : BVIter Nat 0 := ⟨[7, 8], 1, [5], 1, 9⟩

def bvIncEndIter : BVIter Nat 0 := ⟨[], 0, [0], 0, 0⟩

def bvDecFirstIter : BVIter Nat 0 := ⟨[], 0, [1], -1, 0⟩

def bvAdvIter : BVIter Nat 0 := ⟨[], 0, [1], 0, 0⟩

def bvChildErrIter : BVIter Nat 1 := ⟨[[]], 0, [1, 0], -1, 0⟩

def fvInvalidLeaf : FVIter Nat 0 := .leaf [] false 0

def uriahView : BView Nat 1 := ⟨uriahFuller, [6, 3], 42⟩

-- ***************************************************************************
-- Unfolding equations for the per-level FlatViewIterator operations
-- ***************************************************************************

theorem fvMakeBegin_leaf {α : Type} (xs : List α) :
    fvMakeBegin (n := 0) xs = FVIter.leaf xs (decide (¬(0 = xs.length))) 0 := rfl

theorem fvMakeEnd_leaf {α : Type} (xs : List α) :
    fvMakeEnd (n := 0) xs = FVIter.leaf xs false xs.length := rfl

theorem fvInc_leaf {α : Type} (xs : List α) (v : Bool) (cur : Nat) :
    fvInc (FVIter.leaf xs v cur) =
      FVIter.leaf xs (decide (¬((if v then cur + 1 else cur) = xs.length)))
        (if v then cur + 1 else cur) := rfl

theorem fvDec_leaf {α : Type} (xs : List α) (v : Bool) (cur : Nat) :
    fvDec (FVIter.leaf xs v cur) =
      (if cur = 0 then FVIter.leaf xs false 0 else FVIter.leaf xs true (cur - 1)) := rfl

theorem fvMakeBegin_node {α : Type} {n : Nat} (xs : List (Nested α (n + 1))) :
    fvMakeBegin (n := n + 1) xs = fvInc (FVIter.node xs 0 (fvDefault α n)) := rfl

theorem fvMakeEnd_node {α : Type} {n : Nat} (xs : List (Nested α (n + 1))) :
    fvMakeEnd (n := n + 1) xs = FVIter.node xs xs.length (fvDefault α n) := rfl

theorem fvInc_node {α : Type} {n : Nat} (xs : List (Nested α (n + 1))) (cur : Nat)
    (child : FVIter α n) :
    fvInc (FVIter.node xs cur child) =
      (let s :=
        if fvValid (FVIter.node xs cur child) then
          let c := fvInc child
          if fvValid c then (cur, c)
          else fvSeekF fvMakeBegin (xs.drop (cur + 1)) (cur + 1) c
        else fvSeekF fvMakeBegin (xs.drop cur) cur child
      FVIter.node xs s.1 s.2) := rfl

theorem fvDec_node {α : Type} {n : Nat} (xs : List (Nested α (n + 1))) (cur : Nat)
    (child : FVIter α n) :
    fvDec (FVIter.node xs cur child) =
      (let s :=
        if fvValid (FVIter.node xs cur child) then
          let c := fvDec child
          if fvValid c then (cur, c)
          else fvSeekB (fun e => fvDec (fvMakeEnd e)) xs cur c
        else fvSeekB (fun e => fvDec (fvMakeEnd e)) xs cur child
      FVIter.node xs s.1 s.2) := rfl

-- ***************************************************************************
-- The reachable valid states of a FlatViewIterator
-- ***************************************************************************

/-- `Rep2 ys it pre post`: the iterator `it` over the range `ys` is the valid
state that has already yielded the leaves `pre` and will yield the leaves
`post` (so `pre ++ post = flattenN ys` and `it` points at `post.head`).
The two constructors record the exact shape such states have:
a leaf iterator is at `current_ = pre.length`, and a node iterator holds a
valid child in the `current_`-th subrange. -/
inductive Rep2 {α : Type} : {n : Nat} → Nested α (n + 1) → FVIter α n → List α → List α → Prop
  | leaf (xs : List α) (cur : Nat) (h : cur < xs.length) :
      Rep2 (n := 0) xs (FVIter.leaf xs true cur) (xs.take cur) (xs.drop cur)
  | node {n : Nat} (ys : List (Nested α (n + 1))) (cur : Nat) (h : cur < ys.length)
      (child : FVIter α n) (cpre cpost : List α) :
      Rep2 (ys.get ⟨cur, h⟩) child cpre cpost →
      Rep2 (n := n + 1) ys (FVIter.node ys cur child)
        (flatL (ys.take cur) ++ cpre) (cpost ++ flatL (ys.drop (cur + 1)))

-- ***************************************************************************
-- Helper lemmas about flatL / flattenN / scalarSize
-- ***************************************************************************

@[simp] theorem flatL_nil {α : Type} {n : Nat} : flatL ([] : List (Nested α n)) = [] := rfl

@[simp] theorem flatL_cons {α : Type} {n : Nat} (y : Nested α n) (l : List (Nested α n)) :
    flatL (y :: l) = flattenN y ++ flatL l := by simp [flatL]

@[simp] theorem flatL_append {α : Type} {n : Nat} (l m : List (Nested α n)) :
    flatL (l ++ m) = flatL l ++ flatL m := by simp [flatL]

theorem flatL_zero {α : Type} (l : List (Nested α 0)) : flatL l = l := by
  induction l with
  | nil => rfl
  | cons a t ih =>
    rw [flatL_cons, ih]
    rfl

theorem flattenN_one {α : Type} (xs : List (Nested α 0)) :
    flattenN (n := 1) xs = xs := by
  rw [flattenN_succ, flatL_zero]

theorem flatL_take_get_drop {α : Type} {n : Nat} (l : List (Nested α n)) (cur : Nat)
    (h : cur < l.length) :
    flatL l = flatL (l.take cur) ++ flattenN (l.get ⟨cur, h⟩) ++ flatL (l.drop (cur + 1)) := by
  conv_lhs => rw [← List.take_append_drop cur l]
  rw [flatL_append, List.drop_eq_getElem_cons h, flatL_cons]
  simp

theorem flatL_take_mono {α : Type} {n : Nat} (l : List (Nested α n)) {i j : Nat} (hij : i ≤ j) :
    (flatL (l.take i)).length ≤ (flatL (l.take j)).length := by
  have : l.take j = l.take i ++ (l.drop i).take (j - i) := by
    rw [← List.take_add]; congr 1; omega
  rw [this, flatL_append]
  simp

theorem flatL_eq_nil_iff {α : Type} {n : Nat} (l : List (Nested α n)) :
    flatL l = [] ↔ ∀ y ∈ l, flattenN y = [] := by
  induction l with
  | nil => simp
  | cons a t ih => simp [flatL_cons, ih]

theorem length_flattenN {α : Type} : ∀ {n : Nat} (x : Nested α n),
    (flattenN x).length = scalarSize x := by
  intro n
  induction n with
  | zero => intro x; rfl
  | succ m ih =>
    intro x
    match m with
    | 0 => rw [flattenN_one]; rfl
    | m' + 1 =>
      show (flatL (nlist x)).length = List.foldl (fun acc sub => acc + scalarSize sub) 0 (nlist x)
      have aux : ∀ (l : List (Nested α (m' + 1))) (a : Nat),
          List.foldl (fun acc sub => acc + scalarSize sub) a l = a + (flatL l).length := by
        intro l
        induction l with
        | nil => intro a; rw [List.foldl_nil, flatL_nil]; simp
        | cons y t iht =>
          intro a
          rw [List.foldl_cons, iht, flatL_cons, List.length_append, ← ih y]
          omega
      rw [aux]
      omega

-- ***************************************************************************
-- Basic properties of Rep2
-- ***************************************************************************

theorem Rep2.valid {α : Type} {n : Nat} {ys : Nested α (n + 1)} {it : FVIter α n}
    {pre post : List α} (h : Rep2 ys it pre post) : fvValid it = true := by
  induction h with
  | leaf xs cur h => rfl
  | node ys cur h child cpre cpost hc ih => simp [fvValid, h, ih]

theorem Rep2.post_ne_nil {α : Type} {n : Nat} {ys : Nested α (n + 1)} {it : FVIter α n}
    {pre post : List α} (h : Rep2 ys it pre post) : post ≠ [] := by
  induction h with
  | leaf xs cur h => simp [List.drop_eq_nil_iff]; omega
  | node ys cur h child cpre cpost hc ih => simp [ih]

theorem Rep2.flat {α : Type} {n : Nat} {ys : Nested α (n + 1)} {it : FVIter α n}
    {pre post : List α} (h : Rep2 ys it pre post) : pre ++ post = flattenN ys := by
  induction h with
  | leaf xs cur h => rw [flattenN_one]; exact List.take_append_drop cur xs
  | node ys cur h child cpre cpost hc ih =>
    rw [flattenN_succ, flatL_take_get_drop ys cur h, ← ih]
    simp

theorem Rep2.deref {α : Type} {n : Nat} {ys : Nested α (n + 1)} {it : FVIter α n}
    {pre post : List α} (h : Rep2 ys it pre post) : fvDeref it = post.head? := by
  induction h with
  | leaf xs cur h => simp [fvDeref, List.head?_drop, List.get?_eq_getElem?]
  | node ys cur h child cpre cpost hc ih =>
    have hv : fvValid (FVIter.node ys cur child) = true :=
      Rep2.valid (.node ys cur h child cpre cpost hc)
    rw [List.head?_append_of_ne_nil _ (Rep2.post_ne_nil hc)]
    simp [fvDeref, hv, ih]

-- ***************************************************************************
-- Behaviour of the seek loops
-- ***************************************************************************

@[simp] theorem fvValid_default {α : Type} : ∀ {n : Nat}, fvValid (fvDefault α n) = false
  | 0 => rfl
  | n + 1 => by simp [fvDefault, fvValid]

theorem fvSeekF_none {α : Type} {n : Nat} (mk : Nested α (n + 1) → FVIter α n) :
    ∀ (pending : List (Nested α (n + 1))) (cur : Nat) (ch : FVIter α n),
      (∀ e ∈ pending, fvValid (mk e) = false) →
      (fvSeekF mk pending cur ch).1 = cur + pending.length := by
  intro pending
  induction pending with
  | nil => intro cur ch _; simp [fvSeekF]
  | cons y rest ih =>
    intro cur ch h
    have hy : fvValid (mk y) = false := h y (List.mem_cons_self y rest)
    have hrest : ∀ e ∈ rest, fvValid (mk e) = false := fun e he => h e (List.mem_cons_of_mem y he)
    simp only [fvSeekF, hy]
    rw [if_neg (by simp)]
    rw [ih (cur + 1) (mk y) hrest]
    simp [List.length_cons]
    omega

theorem fvSeekF_found {α : Type} {n : Nat} (mk : Nested α (n + 1) → FVIter α n) :
    ∀ (l1 : List (Nested α (n + 1))) (y : Nested α (n + 1)) (l2 : List (Nested α (n + 1)))
      (cur : Nat) (ch : FVIter α n),
      (∀ e ∈ l1, fvValid (mk e) = false) → fvValid (mk y) = true →
      fvSeekF mk (l1 ++ y :: l2) cur ch = (cur + l1.length, mk y) := by
  intro l1
  induction l1 with
  | nil =>
    intro y l2 cur ch _ hy
    simp only [List.nil_append, fvSeekF, hy]
    simp
  | cons z rest ih =>
    intro y l2 cur ch h hy
    have hz : fvValid (mk z) = false := h z (List.mem_cons_self z rest)
    have hrest : ∀ e ∈ rest, fvValid (mk e) = false := fun e he => h e (List.mem_cons_of_mem z he)
    simp only [List.cons_append, fvSeekF, hz]
    rw [if_neg (by simp)]
    show fvSeekF mk (rest ++ y :: l2) (cur + 1) (mk z) = (cur + (z :: rest).length, mk y)
    rw [ih y l2 (cur + 1) (mk z) hrest hy]
    simp [List.length_cons]
    omega

theorem exists_split_first {α : Type} {k : Nat} (l : List (Nested α k)) (h : flatL l ≠ []) :
    ∃ l1 y l2, l = l1 ++ y :: l2 ∧ flatL l1 = [] ∧ flattenN y ≠ [] := by
  induction l with
  | nil => simp at h
  | cons y t ih =>
    by_cases hy : flattenN y = []
    · have ht : flatL t ≠ [] := by
        intro hc; exact h (by simp [flatL_cons, hy, hc])
      obtain ⟨l1, z, l2, hsplit, h1, h2⟩ := ih ht
      exact ⟨y :: l1, z, l2, by rw [hsplit]; simp, by simp [flatL_cons, hy, h1], h2⟩
    · exact ⟨[], y, t, rfl, rfl, hy⟩

-- ***************************************************************************
-- makeBegin reaches the first leaf (or the end state when there is none)
-- ***************************************************************************

theorem fvMakeBegin_spec {α : Type} [DecidableEq α] :
    ∀ {n : Nat} (ys : Nested α (n + 1)),
      (flattenN ys ≠ [] → Rep2 ys (fvMakeBegin ys) [] (flattenN ys)) ∧
      (flattenN ys = [] →
        fvValid (fvMakeBegin ys) = false ∧ fvEqual (fvMakeBegin ys) (fvMakeEnd ys) = true) := by
  intro n
  induction n with
  | zero =>
    intro ys
    constructor
    · intro hne
      rw [flattenN_one] at hne ⊢
      have h0 : 0 < List.length (α := α) ys := by
        cases ys with
        | nil => exact absurd rfl hne
        | cons a t => simp
      have hd : decide (¬(0 = List.length (α := α) ys)) = true := by
        simp only [decide_eq_true_eq]
        omega
      rw [fvMakeBegin_leaf, hd]
      exact Rep2.leaf ys 0 h0
    · intro hempty
      rw [flattenN_one] at hempty
      subst hempty
      constructor
      · rfl
      · rfl
  | succ m ih =>
    intro ys
    have hv : ∀ e : Nested α (m + 1), fvValid (fvMakeBegin e) = decide (¬(flattenN e = [])) := by
      intro e
      by_cases he : flattenN e = []
      · rw [((ih e).2 he).1, he]
        simp
      · rw [Rep2.valid ((ih e).1 he)]
        simp [he]
    constructor
    · intro hne
      rw [flattenN_succ] at hne
      obtain ⟨l1, y, l2, hsplit, h1, h2⟩ := exists_split_first ys hne
      subst hsplit
      have hseek : fvSeekF fvMakeBegin (l1 ++ y :: l2) 0 (fvDefault α m) =
          (l1.length, fvMakeBegin y) := by
        rw [fvSeekF_found fvMakeBegin l1 y l2 0 (fvDefault α m)
          (fun e he => by
            rw [hv e]
            have : flattenN e = [] := (flatL_eq_nil_iff l1).mp h1 e he
            simp [this])
          (by rw [hv y]; simp [h2])]
        simp
      have hrun : fvMakeBegin (n := m + 1) (l1 ++ y :: l2) =
          FVIter.node (l1 ++ y :: l2) l1.length (fvMakeBegin y) := by
        rw [fvMakeBegin_node, fvInc_node]
        have hval : fvValid (FVIter.node (l1 ++ y :: l2) 0 (fvDefault α m)) = false := by
          simp [fvValid]
        rw [hval]
        simp [hseek]
      rw [hrun]
      have hk : l1.length < (l1 ++ y :: l2).length := by simp
      have hget : (l1 ++ y :: l2).get ⟨l1.length, hk⟩ = y := by
        rw [List.get_eq_getElem, List.getElem_append_right (le_refl _)]
        simp
      have hchild : Rep2 ((l1 ++ y :: l2).get ⟨l1.length, hk⟩) (fvMakeBegin y) [] (flattenN y) := by
        rw [hget]
        exact (ih y).1 h2
      have hnode := Rep2.node (l1 ++ y :: l2) l1.length hk (fvMakeBegin y) [] (flattenN y) hchild
      have htake : (l1 ++ y :: l2).take l1.length = l1 := List.take_left l1 (y :: l2)
      have hdrop : (l1 ++ y :: l2).drop (l1.length + 1) = l2 := by
        rw [← List.drop_drop 1 l1.length (l1 ++ y :: l2), List.drop_left]
        rfl
      rw [htake, hdrop, h1] at hnode
      have hflat : flattenN (n := m + 1 + 1) (l1 ++ y :: l2) = flattenN y ++ flatL l2 := by
        rw [flattenN_succ, flatL_append, flatL_cons, h1]
        simp
      rw [hflat]
      simpa using hnode
    · intro hempty
      rw [flattenN_succ] at hempty
      have hall : ∀ e ∈ (ys : List (Nested α (m + 1))), fvValid (fvMakeBegin e) = false := by
        intro e he
        rw [hv e, (flatL_eq_nil_iff ys).mp hempty e he]
        simp
      have hseek := fvSeekF_none fvMakeBegin ys 0 (fvDefault α m) hall
      have hrun : fvMakeBegin (n := m + 1) ys =
          FVIter.node ys (fvSeekF fvMakeBegin ys 0 (fvDefault α m)).1
            (fvSeekF fvMakeBegin ys 0 (fvDefault α m)).2 := by
        rw [fvMakeBegin_node, fvInc_node]
        have hval : fvValid (FVIter.node (α := α) ys 0 (fvDefault α m)) = false := by
          simp [fvValid]
        rw [hval]
        simp
      constructor
      · rw [hrun]
        simp only [fvValid]
        rw [hseek]
        simp
      · rw [hrun, fvMakeEnd_node]
        simp only [fvEqual, fvValid]
        rw [hseek]
        simp

/-- `makeBegin` of a nonempty flattening is the first reachable state. -/
theorem fvMakeBegin_rep2 {α : Type} {n : Nat} (ys : Nested α (n + 1))
    (h : flattenN ys ≠ []) : Rep2 ys (fvMakeBegin ys) [] (flattenN ys) := by
  classical
  exact (fvMakeBegin_spec (α := α) ys).1 h

/-- `makeBegin` of an empty flattening is invalid and equal to `makeEnd`. -/
theorem fvMakeBegin_empty {α : Type} [DecidableEq α] {n : Nat} (ys : Nested α (n + 1))
    (h : flattenN ys = []) :
    fvValid (fvMakeBegin ys) = false ∧ fvEqual (fvMakeBegin ys) (fvMakeEnd ys) = true :=
  (fvMakeBegin_spec ys).2 h

/-- `makeBegin` is valid exactly when the range contains a leaf. -/
theorem fvValid_makeBegin {α : Type} [DecidableEq α] {n : Nat} (ys : Nested α (n + 1)) :
    fvValid (fvMakeBegin ys) = decide (¬(flattenN ys = [])) := by
  by_cases h : flattenN ys = []
  · rw [(fvMakeBegin_empty ys h).1, h]
    simp
  · rw [Rep2.valid (fvMakeBegin_rep2 ys h)]
    simp [h]

-- ***************************************************************************
-- Increment advances a reachable state by exactly one leaf
-- ***************************************************************************

theorem concat_inj {α : Type} {p q : List α} {b c : α} (h : p ++ [b] = q ++ [c]) :
    p = q ∧ b = c := by
  have h1 := congrArg List.dropLast h
  rw [List.dropLast_concat, List.dropLast_concat] at h1
  have h2 := congrArg List.getLast? h
  rw [List.getLast?_concat, List.getLast?_concat] at h2
  exact ⟨h1, by simpa using h2⟩

theorem flatL_take_succ {α : Type} {k : Nat} (l : List (Nested α k)) (cur : Nat)
    (h : cur < l.length) :
    flatL (l.take (cur + 1)) = flatL (l.take cur) ++ flattenN (l.get ⟨cur, h⟩) := by
  rw [← List.take_concat_get' l cur h, flatL_append, flatL_cons, flatL_nil,
    List.append_nil, List.get_eq_getElem]

theorem fvInc_spec {α : Type} [DecidableEq α] :
    ∀ {n : Nat} (ys : Nested α (n + 1)) (it : FVIter α n) (pre : List α) (a : α)
      (rest : List α),
      Rep2 ys it pre (a :: rest) →
      (rest ≠ [] → Rep2 ys (fvInc it) (pre ++ [a]) rest) ∧
      (rest = [] → fvValid (fvInc it) = false ∧ fvEqual (fvInc it) (fvMakeEnd ys) = true) := by
  intro n
  induction n with
  | zero =>
    intro ys it pre a rest hrep
    generalize hq : a :: rest = post0 at hrep
    cases hrep with
    | leaf _xs cur h =>
      have hdrop : ys.drop cur = a :: rest := hq.symm
      have hcons : ys.get ⟨cur, h⟩ :: ys.drop (cur + 1) = a :: rest := by
        rw [List.get_eq_getElem, ← List.drop_eq_getElem_cons h, hdrop]
      have ha : ys.get ⟨cur, h⟩ = a := by injection hcons
      have hrest : ys.drop (cur + 1) = rest := by injection hcons
      rw [fvInc_leaf]
      simp only [if_true]
      constructor
      · intro hne
        have hlt : cur + 1 < ys.length := by
          by_contra hge
          have : ys.drop (cur + 1) = [] := by
            rw [List.drop_eq_nil_iff]
            omega
          rw [hrest] at this
          exact hne this
        have hd : decide (¬(cur + 1 = ys.length)) = true := by
          simp only [decide_eq_true_eq]
          omega
        rw [hd]
        have := Rep2.leaf ys (cur + 1) hlt
        rw [← List.take_concat_get' ys cur h] at this
        rw [← ha, ← hrest]
        exact this
      · intro hempty
        have hlen : ys.length = cur + 1 := by
          have : ys.drop (cur + 1) = [] := by rw [hrest, hempty]
          rw [List.drop_eq_nil_iff] at this
          omega
        have hd : decide (¬(cur + 1 = ys.length)) = false := by
          simp only [decide_eq_false_iff_not]
          omega
        rw [hd]
        constructor
        · rfl
        · rw [fvMakeEnd_leaf, hlen]
          simp [fvEqual]
  | succ m ih =>
    intro ys it pre a rest hrep
    generalize hq : a :: rest = post0 at hrep
    cases hrep with
    | node _ys cur h child cpre cpost hc =>
      have hpost' : cpost ++ flatL (ys.drop (cur + 1)) = a :: rest := hq.symm
      have hval : fvValid (FVIter.node ys cur child) = true :=
        Rep2.valid (Rep2.node ys cur h child cpre cpost hc)
      obtain ⟨c0, ct, rfl⟩ : ∃ c0 ct, cpost = c0 :: ct := by
        cases cpost with
        | nil => exact absurd rfl (Rep2.post_ne_nil hc)
        | cons c0 ct => exact ⟨c0, ct, rfl⟩
      have ha : a = c0 := by have : c0 = a := by injection hpost'
                             exact this.symm
      have hrest : ct ++ flatL (ys.drop (cur + 1)) = rest := by injection hpost'
      subst ha
      by_cases hct : ct = []
      · -- the child is exhausted by this increment: seek forward
        subst hct
        have hcinv : fvValid (fvInc child) = false :=
          ((ih (ys.get ⟨cur, h⟩) child cpre a [] hc).2 rfl).1
        have hstep : fvInc (FVIter.node ys cur child) =
            FVIter.node ys
              (fvSeekF fvMakeBegin (ys.drop (cur + 1)) (cur + 1) (fvInc child)).1
              (fvSeekF fvMakeBegin (ys.drop (cur + 1)) (cur + 1) (fvInc child)).2 := by
          rw [fvInc_node, hval]
          simp [hcinv]
        have hpre_a : (flatL (ys.take cur) ++ cpre) ++ [a] = flatL (ys.take (cur + 1)) := by
          rw [flatL_take_succ ys cur h, ← Rep2.flat hc]
          simp
        constructor
        · intro hne
          rw [← hrest] at hne
          simp only [List.nil_append] at hne
          obtain ⟨d1, z, d2, hsplit, hd1, hz⟩ := exists_split_first (ys.drop (cur + 1)) hne
          have hseek : fvSeekF fvMakeBegin (ys.drop (cur + 1)) (cur + 1) (fvInc child) =
              (cur + 1 + d1.length, fvMakeBegin z) := by
            rw [hsplit]
            rw [fvSeekF_found fvMakeBegin d1 z d2 (cur + 1) (fvInc child)
              (fun e he => by
                rw [fvValid_makeBegin]
                have : flattenN e = [] := (flatL_eq_nil_iff d1).mp hd1 e he
                simp [this])
              (by rw [fvValid_makeBegin]; simp [hz])]
          have hjlen : (ys.drop (cur + 1)).length = d1.length + 1 + d2.length := by
            rw [hsplit]
            simp
            omega
          have hj : cur + 1 + d1.length < ys.length := by
            have := List.length_drop (cur + 1) ys
            omega
          have hdz : ys.drop (cur + 1 + d1.length) = z :: d2 := by
            rw [← List.drop_drop d1.length (cur + 1) ys, hsplit, List.drop_left]
          have hcons2 : ys.get ⟨cur + 1 + d1.length, hj⟩ ::
              ys.drop (cur + 1 + d1.length + 1) = z :: d2 := by
            rw [List.get_eq_getElem, ← List.drop_eq_getElem_cons hj, hdz]
          have hget : ys.get ⟨cur + 1 + d1.length, hj⟩ = z := by injection hcons2
          have hdropj : ys.drop (cur + 1 + d1.length + 1) = d2 := by injection hcons2
          have hchildrep : Rep2 (ys.get ⟨cur + 1 + d1.length, hj⟩) (fvMakeBegin z) []
              (flattenN z) := by
            rw [hget]
            exact fvMakeBegin_rep2 z hz
          have hnode := Rep2.node ys (cur + 1 + d1.length) hj (fvMakeBegin z) []
            (flattenN z) hchildrep
          have htake : flatL (ys.take (cur + 1 + d1.length)) = flatL (ys.take (cur + 1)) := by
            rw [List.take_add, flatL_append, hsplit, List.take_left, hd1, List.append_nil]
          rw [htake, hdropj] at hnode
          have hrest2 : rest = flattenN z ++ flatL d2 := by
            rw [← hrest, hsplit]
            rw [flatL_append, flatL_cons, hd1]
            simp
          rw [hstep, hseek]
          rw [hpre_a, hrest2]
          simpa using hnode
        · intro hempty
          rw [← hrest] at hempty
          simp only [List.nil_append] at hempty
          have hall : ∀ e ∈ ys.drop (cur + 1), fvValid (fvMakeBegin e) = false := by
            intro e he
            rw [fvValid_makeBegin, (flatL_eq_nil_iff (ys.drop (cur + 1))).mp hempty e he]
            simp
          have hseek := fvSeekF_none fvMakeBegin (ys.drop (cur + 1)) (cur + 1) (fvInc child) hall
          have hfin : (fvSeekF fvMakeBegin (ys.drop (cur + 1)) (cur + 1) (fvInc child)).1 =
              ys.length := by
            rw [hseek]
            have := List.length_drop (cur + 1) ys
            omega
          constructor
          · rw [hstep]
            simp only [fvValid]
            rw [hfin]
            simp
          · rw [hstep, fvMakeEnd_node]
            simp only [fvEqual, fvValid]
            rw [hfin]
            simp
      · -- the child still has leaves: it advances in place
        have hchild1 : Rep2 (ys.get ⟨cur, h⟩) (fvInc child) (cpre ++ [a]) ct :=
          (ih (ys.get ⟨cur, h⟩) child cpre a ct hc).1 hct
        have hcv : fvValid (fvInc child) = true := Rep2.valid hchild1
        have hstep : fvInc (FVIter.node ys cur child) = FVIter.node ys cur (fvInc child) := by
          rw [fvInc_node, hval]
          simp [hcv]
        have hrest_ne : rest ≠ [] := by
          rw [← hrest]
          simp [hct]
        constructor
        · intro _
          have hnode := Rep2.node ys cur h (fvInc child) (cpre ++ [a]) ct hchild1
          rw [hstep, ← hrest]
          simpa using hnode
        · intro hempty
          exact absurd hempty hrest_ne

-- ***************************************************************************
-- Decrement retreats a reachable state by exactly one leaf
-- ***************************************************************************

theorem fvSeekB_none {α : Type} {n : Nat} (step : Nested α (n + 1) → FVIter α n)
    (xs : List (Nested α (n + 1))) :
    ∀ (cur : Nat) (ch : FVIter α n), cur ≤ xs.length →
      (∀ i (hi : i < xs.length), i < cur → fvValid (step (xs.get ⟨i, hi⟩)) = false) →
      fvValid ch = false →
      (fvSeekB step xs cur ch).1 = 0 ∧ fvValid (fvSeekB step xs cur ch).2 = false := by
  intro cur
  induction cur with
  | zero => intro ch _ _ hch; exact ⟨rfl, hch⟩
  | succ c ihc =>
    intro ch hle hsteps _
    have hc : c < xs.length := by omega
    have hgetD : xs.getD c ([] : List (Nested α n)) = xs.get ⟨c, hc⟩ := by
      rw [List.getD_eq_getElem xs _ hc, List.get_eq_getElem]
    have hinv : fvValid (step (xs.getD c ([] : List (Nested α n)))) = false := by
      rw [hgetD]
      exact hsteps c hc (by omega)
    simp only [fvSeekB, hinv]
    rw [if_neg (by simp)]
    exact ihc (step (xs.getD c ([] : List (Nested α n)))) (by omega)
      (fun i hi hic => hsteps i hi (by omega)) hinv

theorem fvSeekB_found {α : Type} {n : Nat} (step : Nested α (n + 1) → FVIter α n)
    (xs : List (Nested α (n + 1))) :
    ∀ (cur : Nat) (ch : FVIter α n) (j : Nat) (hj : j < xs.length), cur ≤ xs.length → j < cur →
      fvValid (step (xs.get ⟨j, hj⟩)) = true →
      (∀ i (hi : i < xs.length), j < i → i < cur → fvValid (step (xs.get ⟨i, hi⟩)) = false) →
      fvSeekB step xs cur ch = (j, step (xs.get ⟨j, hj⟩)) := by
  intro cur
  induction cur with
  | zero => intro ch j hj hle hjc; omega
  | succ c ihc =>
    intro ch j hj hle hjc hjv hbetween
    have hc : c < xs.length := by omega
    have hgetD : xs.getD c ([] : List (Nested α n)) = xs.get ⟨c, hc⟩ := by
      rw [List.getD_eq_getElem xs _ hc, List.get_eq_getElem]
    by_cases hcj : c = j
    · subst hcj
      have : fvValid (step (xs.getD c ([] : List (Nested α n)))) = true := by
        rw [hgetD]
        exact hjv
      simp only [fvSeekB, this]
      rw [if_pos (by simp), hgetD]
    · have hinv : fvValid (step (xs.getD c ([] : List (Nested α n)))) = false := by
        rw [hgetD]
        exact hbetween c hc (by omega) (by omega)
      simp only [fvSeekB, hinv]
      rw [if_neg (by simp)]
      exact ihc (step (xs.getD c ([] : List (Nested α n)))) j hj (by omega) (by omega) hjv
        (fun i hi hji hic => hbetween i hi hji (by omega))

theorem flattenN_eq_nil_of_flatL_take {α : Type} {k : Nat} (l : List (Nested α k)) (cur : Nat)
    (hcur : flatL (l.take cur) = []) (i : Nat) (hi : i < l.length) (hic : i < cur) :
    flattenN (l.get ⟨i, hi⟩) = [] := by
  have hsplitTake : l.take cur = l.take (i + 1) ++ (l.drop (i + 1)).take (cur - (i + 1)) := by
    rw [← List.take_add]
    congr 1
    omega
  rw [hsplitTake, flatL_append] at hcur
  have h1 : flatL (l.take (i + 1)) = [] := (List.append_eq_nil.mp hcur).1
  rw [flatL_take_succ l i hi] at h1
  exact (List.append_eq_nil.mp h1).2

/-- The last index below `cur` holding a leaf, when the prefix contains one. -/
theorem exists_last_nonempty {α : Type} {k : Nat} (l : List (Nested α k)) :
    ∀ (cur : Nat), cur ≤ l.length → flatL (l.take cur) ≠ [] →
      ∃ j, ∃ hj : j < l.length, j < cur ∧ flattenN (l.get ⟨j, hj⟩) ≠ [] ∧
        (∀ i (hi : i < l.length), j < i → i < cur → flattenN (l.get ⟨i, hi⟩) = []) ∧
        flatL (l.take (j + 1)) = flatL (l.take cur) := by
  intro cur
  induction cur with
  | zero => intro _ hne; exact absurd rfl hne
  | succ c ihc =>
    intro hle hne
    have hc : c < l.length := by omega
    by_cases hcl : flattenN (l.get ⟨c, hc⟩) = []
    · have hne' : flatL (l.take c) ≠ [] := by
        intro hnil
        exact hne (by rw [flatL_take_succ l c hc, hnil, hcl]; rfl)
      obtain ⟨j, hj, hjc, hjne, hbetween, htk⟩ := ihc (by omega) hne'
      refine ⟨j, hj, by omega, hjne, ?_, ?_⟩
      · intro i hi hji hic
        by_cases hicc : i = c
        · subst hicc; exact hcl
        · exact hbetween i hi hji (by omega)
      · rw [htk, flatL_take_succ l c hc, hcl, List.append_nil]
    · refine ⟨c, hc, by omega, hcl, ?_, rfl⟩
      intro i hi hji hic
      omega

-- ***************************************************************************
-- The decrement specification, with the end-iterator and first-leaf cases
-- ***************************************************************************

theorem fvDec_spec {α : Type} [DecidableEq α] :
    ∀ {n : Nat},
      (∀ (ys : Nested α (n + 1)) (it : FVIter α n) (pre : List α) (b : α) (post : List α),
        Rep2 ys it (pre ++ [b]) post → Rep2 ys (fvDec it) pre (b :: post)) ∧
      (∀ (ys : Nested α (n + 1)) (p : List α) (b : α),
        flattenN ys = p ++ [b] → Rep2 ys (fvDec (fvMakeEnd ys)) p [b]) ∧
      (∀ (ys : Nested α (n + 1)),
        flattenN ys = [] → fvValid (fvDec (fvMakeEnd ys)) = false) ∧
      (∀ (ys : Nested α (n + 1)) (it : FVIter α n) (post : List α),
        Rep2 ys it [] post → fvValid (fvDec it) = false) := by
  intro n
  induction n with
  | zero =>
    refine ⟨?_, ?_, ?_, ?_⟩
    · intro ys it pre b post hrep
      generalize hp : pre ++ [b] = pre0 at hrep
      cases hrep with
      | leaf _xs cur h =>
        cases cur with
        | zero =>
          exfalso
          have : pre ++ [b] = [] := by rw [hp]; rfl
          simp at this
        | succ c =>
          have hc : c < List.length ys := by omega
          have htk : ys.take c ++ [ys.get ⟨c, hc⟩] = ys.take (c + 1) := by
            rw [List.get_eq_getElem]
            exact List.take_concat_get' ys c hc
          have hpb : pre ++ [b] = ys.take c ++ [ys.get ⟨c, hc⟩] := by rw [hp, htk]
          obtain ⟨hpre, hb⟩ := concat_inj hpb
          rw [fvDec_leaf, if_neg (by omega)]
          have hc1 : c + 1 - 1 = c := by omega
          rw [hc1]
          have hdc : ys.drop c = ys.get ⟨c, hc⟩ :: ys.drop (c + 1) := by
            rw [List.get_eq_getElem]
            exact List.drop_eq_getElem_cons hc
          have hgoal := Rep2.leaf ys c hc
          rw [hdc, ← hpre, ← hb] at hgoal
          exact hgoal
    · intro ys p b hflat
      rw [flattenN_one] at hflat
      subst hflat
      rw [fvMakeEnd_leaf, fvDec_leaf, if_neg (by simp)]
      have hl : List.length (α := α) (p ++ [b]) - 1 = p.length := by simp
      rw [hl]
      have hplen : p.length < List.length (α := α) (p ++ [b]) := by simp
      have hgoal := Rep2.leaf (p ++ [b]) p.length hplen
      rw [List.take_left, List.drop_left] at hgoal
      exact hgoal
    · intro ys hflat
      rw [flattenN_one] at hflat
      subst hflat
      rfl
    · intro ys it post hrep
      generalize hp : ([] : List α) = pre0 at hrep
      cases hrep with
      | leaf _xs cur h =>
        have hys : ys ≠ [] := by
          intro hnil
          rw [hnil] at h
          simp at h
        have hcur : cur = 0 := by
          rcases List.take_eq_nil_iff.mp hp.symm with h0 | h0
          · exact h0
          · exact absurd h0 hys
        subst hcur
        rw [fvDec_leaf, if_pos rfl]
        rfl
  | succ m ih =>
    obtain ⟨ihD1, ihrest⟩ := ih
    obtain ⟨ihD2e, ihD2f, ihD3⟩ := ihrest
    have hstepvalid : ∀ e : Nested α (m + 1),
        fvValid (fvDec (fvMakeEnd e)) = decide (¬(flattenN e = [])) := by
      intro e
      rcases List.eq_nil_or_concat' (flattenN e) with he | ⟨p, b, he⟩
      · rw [ihD2f e he, he]
        simp
      · rw [Rep2.valid (ihD2e e p b he), he]
        simp
    have hseekchar : ∀ (ys : List (Nested α (m + 1))) (cur : Nat) (c : FVIter α m),
        cur ≤ ys.length → fvValid c = false →
        (flatL (ys.take cur) = [] →
          fvValid (fvSeekB (fun e => fvDec (fvMakeEnd e)) ys cur c).2 = false) ∧
        (∀ p b, flatL (ys.take cur) = p ++ [b] →
          ∃ j, ∃ hj : j < ys.length, j < cur ∧
            fvSeekB (fun e => fvDec (fvMakeEnd e)) ys cur c =
              (j, fvDec (fvMakeEnd (ys.get ⟨j, hj⟩))) ∧
            ∃ pj, flattenN (ys.get ⟨j, hj⟩) = pj ++ [b] ∧
              flatL (ys.take j) ++ pj = p ∧ flatL (ys.take (j + 1)) = flatL (ys.take cur)) := by
      intro ys cur c hle hcinv
      constructor
      · intro hnil
        exact (fvSeekB_none (fun e => fvDec (fvMakeEnd e)) ys cur c hle
          (fun i hi hic => by
            show fvValid (fvDec (fvMakeEnd (ys.get ⟨i, hi⟩))) = false
            rw [hstepvalid, flattenN_eq_nil_of_flatL_take ys cur hnil i hi hic]
            simp) hcinv).2
      · intro p b hpb
        have hne : flatL (ys.take cur) ≠ [] := by rw [hpb]; simp
        obtain ⟨j, hj, hjc, hjne, hbetween, htk⟩ :=
          exists_last_nonempty ys cur hle hne
        have hfound := fvSeekB_found (fun e => fvDec (fvMakeEnd e)) ys cur c j hj hle hjc
          (by
            show fvValid (fvDec (fvMakeEnd (ys.get ⟨j, hj⟩))) = true
            rw [hstepvalid]
            simp only [decide_eq_true_eq]
            simpa using hjne)
          (fun i hi hji hic => by
            show fvValid (fvDec (fvMakeEnd (ys.get ⟨i, hi⟩))) = false
            rw [hstepvalid, hbetween i hi hji hic]
            simp)
        rcases List.eq_nil_or_concat' (flattenN (ys.get ⟨j, hj⟩)) with hemp | ⟨pj, bj, hpj⟩
        · exact absurd hemp hjne
        · have h2 : flatL (ys.take j) ++ (pj ++ [bj]) = p ++ [b] := by
            rw [← hpj, ← flatL_take_succ ys j hj, htk, hpb]
          have h3 : (flatL (ys.take j) ++ pj) ++ [bj] = p ++ [b] := by
            rw [List.append_assoc]
            exact h2
          obtain ⟨hpre, hbj⟩ := concat_inj h3
          subst hbj
          exact ⟨j, hj, hjc, hfound, pj, hpj, hpre, htk⟩
    refine ⟨?_, ?_, ?_, ?_⟩
    · -- D1: one step back from a mid-range state
      intro ys it pre b post hrep
      generalize hp : pre ++ [b] = pre0 at hrep
      cases hrep with
      | node _ys cur h child cpre cpost hc =>
        have hval : fvValid (FVIter.node ys cur child) = true :=
          Rep2.valid (Rep2.node ys cur h child cpre cpost hc)
        by_cases hcpre : cpre = []
        · subst hcpre
          have hplus : flatL (ys.take cur) = pre ++ [b] := by rw [hp]; simp
          have hcinv : fvValid (fvDec child) = false := ihD3 _ child cpost hc
          have hstep : fvDec (FVIter.node ys cur child) =
              FVIter.node ys (fvSeekB (fun e => fvDec (fvMakeEnd e)) ys cur (fvDec child)).1
                (fvSeekB (fun e => fvDec (fvMakeEnd e)) ys cur (fvDec child)).2 := by
            rw [fvDec_node, hval]
            simp [hcinv]
          obtain ⟨-, hfnd⟩ := hseekchar ys cur (fvDec child) (le_of_lt h) hcinv
          obtain ⟨j, hj, hjc, hres, pj, hpj, hpre, htk⟩ := hfnd pre b hplus
          have hcpost : cpost = flattenN (ys.get ⟨cur, h⟩) := by
            have := Rep2.flat hc
            simpa using this
          have hdropeq : flatL (ys.drop (j + 1)) =
              flattenN (ys.get ⟨cur, h⟩) ++ flatL (ys.drop (cur + 1)) := by
            have e1 : flatL (ys.take (j + 1)) ++ flatL (ys.drop (j + 1)) = flatL ys := by
              rw [← flatL_append, List.take_append_drop]
            have e2 : flatL ys = flatL (ys.take cur) ++
                (flattenN (ys.get ⟨cur, h⟩) ++ flatL (ys.drop (cur + 1))) := by
              rw [flatL_take_get_drop ys cur h, List.append_assoc]
            have e3 : flatL (ys.take cur) ++ flatL (ys.drop (j + 1)) =
                flatL (ys.take cur) ++
                  (flattenN (ys.get ⟨cur, h⟩) ++ flatL (ys.drop (cur + 1))) := by
              conv_lhs => rw [← htk]
              rw [e1, e2]
            exact List.append_cancel_left e3
          have hgoal := Rep2.node ys j hj (fvDec (fvMakeEnd (ys.get ⟨j, hj⟩))) pj [b]
            (ihD2e _ pj b hpj)
          rw [hpre, hdropeq] at hgoal
          rw [hstep, hres, hcpost]
          simpa using hgoal
        · obtain ⟨cp, cb, hcpe⟩ : ∃ cp cb, cpre = cp ++ [cb] := by
            rcases List.eq_nil_or_concat' cpre with h0 | ⟨cp, cb, h0⟩
            · exact absurd h0 hcpre
            · exact ⟨cp, cb, h0⟩
          subst hcpe
          have h3 : pre ++ [b] = (flatL (ys.take cur) ++ cp) ++ [cb] := by
            rw [hp, List.append_assoc]
          obtain ⟨hpre2, hb⟩ := concat_inj h3
          subst hb
          have hchild := ihD1 _ child cp b cpost hc
          have hcv : fvValid (fvDec child) = true := Rep2.valid hchild
          have hstep : fvDec (FVIter.node ys cur child) =
              FVIter.node ys cur (fvDec child) := by
            rw [fvDec_node, hval]
            simp [hcv]
          have hgoal := Rep2.node ys cur h (fvDec child) cp (b :: cpost) hchild
          rw [hstep, hpre2]
          simpa using hgoal
    · -- D2e: decrement of the end iterator reaches the last leaf
      intro ys p b hflat
      rw [flattenN_succ] at hflat
      have hvalE : fvValid (FVIter.node (α := α) ys ys.length (fvDefault α m)) = false := by
        simp [fvValid]
      have hstep : fvDec (FVIter.node (α := α) ys ys.length (fvDefault α m)) =
          FVIter.node ys
            (fvSeekB (fun e => fvDec (fvMakeEnd e)) ys ys.length (fvDefault α m)).1
            (fvSeekB (fun e => fvDec (fvMakeEnd e)) ys ys.length (fvDefault α m)).2 := by
        rw [fvDec_node, hvalE]
        simp
      obtain ⟨-, hfnd⟩ := hseekchar ys ys.length (fvDefault α m) (le_refl _) fvValid_default
      obtain ⟨j, hj, hjc, hres, pj, hpj, hpre, htk⟩ := hfnd p b (by
        rw [List.take_length]
        exact hflat)
      have hdropnil : flatL (ys.drop (j + 1)) = [] := by
        have e1 : flatL (ys.take (j + 1)) ++ flatL (ys.drop (j + 1)) = flatL ys := by
          rw [← flatL_append, List.take_append_drop]
        rw [htk, List.take_length] at e1
        have e2 : flatL ys ++ flatL (ys.drop (j + 1)) = flatL ys ++ [] := by
          rw [List.append_nil, e1]
        exact List.append_cancel_left e2
      have hgoal := Rep2.node ys j hj (fvDec (fvMakeEnd (ys.get ⟨j, hj⟩))) pj [b]
        (ihD2e _ pj b hpj)
      rw [hpre, hdropnil] at hgoal
      rw [fvMakeEnd_node, hstep, hres]
      simpa using hgoal
    · -- D2f: decrement of the end iterator of an empty flattening stays invalid
      intro ys hflat
      rw [flattenN_succ] at hflat
      have hvalE : fvValid (FVIter.node (α := α) ys ys.length (fvDefault α m)) = false := by
        simp [fvValid]
      have hstep : fvDec (FVIter.node (α := α) ys ys.length (fvDefault α m)) =
          FVIter.node ys
            (fvSeekB (fun e => fvDec (fvMakeEnd e)) ys ys.length (fvDefault α m)).1
            (fvSeekB (fun e => fvDec (fvMakeEnd e)) ys ys.length (fvDefault α m)).2 := by
        rw [fvDec_node, hvalE]
        simp
      obtain ⟨hnil, -⟩ := hseekchar ys ys.length (fvDefault α m) (le_refl _) fvValid_default
      have hr := hnil (by rw [List.take_length]; exact hflat)
      rw [fvMakeEnd_node, hstep]
      simp only [fvValid]
      rw [hr]
      simp
    · -- D3: decrement of the first reachable state becomes invalid
      intro ys it post hrep
      generalize hp : ([] : List α) = pre0 at hrep
      cases hrep with
      | node _ys cur h child cpre cpost hc =>
        obtain ⟨htn, hcn⟩ := List.append_eq_nil.mp hp.symm
        subst hcn
        have hval : fvValid (FVIter.node ys cur child) = true :=
          Rep2.valid (Rep2.node ys cur h child [] cpost hc)
        have hcinv : fvValid (fvDec child) = false := ihD3 _ child cpost hc
        have hstep : fvDec (FVIter.node ys cur child) =
            FVIter.node ys (fvSeekB (fun e => fvDec (fvMakeEnd e)) ys cur (fvDec child)).1
              (fvSeekB (fun e => fvDec (fvMakeEnd e)) ys cur (fvDec child)).2 := by
          rw [fvDec_node, hval]
          simp [hcinv]
        obtain ⟨hnil, -⟩ := hseekchar ys cur (fvDec child) (le_of_lt h) hcinv
        have hr := hnil htn
        rw [hstep]
        simp only [fvValid]
        rw [hr]
        simp

-- ***************************************************************************
-- A reachable state is determined by its position
-- ***************************************************************************

theorem length_flatL_take {α : Type} {k : Nat} (l : List (Nested α k)) (i : Nat)
    (hi : i < l.length) :
    (flatL (l.take (i + 1))).length =
      (flatL (l.take i)).length + (flattenN (l.get ⟨i, hi⟩)).length := by
  rw [flatL_take_succ l i hi, List.length_append]

theorem Rep2.unique {α : Type} :
    ∀ {n : Nat} (ys : Nested α (n + 1)) (it it' : FVIter α n) (pre post : List α),
      Rep2 ys it pre post → Rep2 ys it' pre post → it = it' := by
  intro n
  induction n with
  | zero =>
    intro ys it it' pre post hrep hrep'
    cases hrep with
    | leaf _xs cur h =>
      generalize hpre : List.take cur ys = p0 at hrep'
      generalize hpost : List.drop cur ys = q0 at hrep'
      cases hrep' with
      | leaf _xs2 cur' h2 =>
        have hlen : (List.take cur ys).length = (List.take cur' ys).length := by rw [hpre]
        rw [List.length_take, List.length_take] at hlen
        have : cur = cur' := by omega
        rw [this]
  | succ m ih =>
    intro ys it it' pre post hrep hrep'
    cases hrep with
    | node _ys cur h child cpre cpost hc =>
      generalize hpre : flatL (List.take cur ys) ++ cpre = p0 at hrep'
      generalize hpost : cpost ++ flatL (List.drop (cur + 1) ys) = q0 at hrep'
      cases hrep' with
      | node _ys2 cur2 h2 child2 cpre2 cpost2 hc2 =>
        have hflat1 : cpre ++ cpost = flattenN (ys.get ⟨cur, h⟩) := Rep2.flat hc
        have hflat2 : cpre2 ++ cpost2 = flattenN (ys.get ⟨cur2, h2⟩) := Rep2.flat hc2
        have hlt1 : cpre.length < (flattenN (ys.get ⟨cur, h⟩)).length := by
          rw [← hflat1, List.length_append]
          have := Rep2.post_ne_nil hc
          have : 0 < cpost.length := List.length_pos.mpr this
          omega
        have hlt2 : cpre2.length < (flattenN (ys.get ⟨cur2, h2⟩)).length := by
          rw [← hflat2, List.length_append]
          have := Rep2.post_ne_nil hc2
          have : 0 < cpost2.length := List.length_pos.mpr this
          omega
        have hpl : (flatL (List.take cur ys)).length + cpre.length =
            (flatL (List.take cur2 ys)).length + cpre2.length := by
          have := congrArg List.length hpre
          rw [List.length_append] at this
          rw [this, List.length_append]
        have hcc : cur = cur2 := by
          rcases Nat.lt_trichotomy cur cur2 with hlt | heq | hgt
          · exfalso
            have hm := flatL_take_mono ys (i := cur + 1) (j := cur2) hlt
            rw [length_flatL_take ys cur h] at hm
            omega
          · exact heq
          · exfalso
            have hm := flatL_take_mono ys (i := cur2 + 1) (j := cur) hgt
            rw [length_flatL_take ys cur2 h2] at hm
            omega
        subst hcc
        have hcpre : cpre = cpre2 := List.append_cancel_left hpre
        subst hcpre
        rw [← hflat2] at hflat1
        have hcpost : cpost = cpost2 := List.append_cancel_left hflat1
        subst hcpost
        have : child = child2 := ih _ child child2 cpre cpost hc hc2
        rw [this]

-- ***************************************************************************
-- The iterator equality is a congruence for the iterator operations
-- ***************************************************************************

theorem fvEqual_refl {α : Type} [DecidableEq α] :
    ∀ {n : Nat} (it : FVIter α n), fvEqual it it = true := by
  intro n
  induction n with
  | zero =>
    intro it
    cases it with
    | leaf xs v cur => simp [fvEqual]
  | succ m ih =>
    intro it
    cases it with
    | node xs cur child =>
      by_cases hv : fvValid (FVIter.node xs cur child) = true
      · simp [fvEqual, hv, ih child]
      · have hv' : fvValid (FVIter.node xs cur child) = false := by
          revert hv
          cases fvValid (FVIter.node xs cur child) <;> simp
        simp [fvEqual, hv']

/-- The body of the forward-seek loop does not read the incoming child. -/
theorem fvSeekF_cons_ignores {α : Type} {n : Nat} (mk : Nested α (n + 1) → FVIter α n)
    (y : Nested α (n + 1)) (rest : List (Nested α (n + 1))) (cur : Nat)
    (c c' : FVIter α n) :
    fvSeekF mk (y :: rest) cur c = fvSeekF mk (y :: rest) cur c' := rfl

/-- The body of the backward-seek loop does not read the incoming child. -/
theorem fvSeekB_succ_ignores {α : Type} {n : Nat} (step : Nested α (n + 1) → FVIter α n)
    (xs : List (Nested α (n + 1))) (c : Nat) (ch ch' : FVIter α n) :
    fvSeekB step xs (c + 1) ch = fvSeekB step xs (c + 1) ch' := rfl

theorem fvEqual_congr {α : Type} [DecidableEq α] :
    ∀ {n : Nat} (it it' : FVIter α n), fvEqual it it' = true →
      fvValid it = fvValid it' ∧ fvDeref it = fvDeref it' ∧
      fvEqual (fvInc it) (fvInc it') = true ∧ fvEqual (fvDec it) (fvDec it') = true := by
  intro n
  induction n with
  | zero =>
    intro it it' h
    cases it with
    | leaf xs v cur =>
      cases it' with
      | leaf xs' v' cur' =>
        simp only [fvEqual, Bool.and_eq_true, decide_eq_true_eq, beq_iff_eq] at h
        obtain ⟨⟨h1, h2⟩, h3⟩ := h
        subst h1
        subst h2
        subst h3
        exact ⟨rfl, rfl, fvEqual_refl _, fvEqual_refl _⟩
  | succ m ih =>
    intro it it' h
    cases it with
    | node xs cur child =>
      cases it' with
      | node xs' cur' child' =>
        simp only [fvEqual, Bool.and_eq_true, Bool.or_eq_true, decide_eq_true_eq,
          beq_iff_eq, Bool.not_eq_true'] at h
        obtain ⟨⟨h1, h2⟩, hdis⟩ := h
        subst h1
        subst h2
        rcases hdis with ⟨hv, hv'⟩ | ⟨⟨hv, hv'⟩, hce⟩
        · -- both invalid: the operations rebuild children identically
          refine ⟨by rw [hv, hv'], ?_, ?_, ?_⟩
          · simp [fvDeref, hv, hv']
          · rw [fvInc_node, fvInc_node, hv, hv']
            simp only [Bool.false_eq_true, if_false]
            cases hpend : xs.drop cur with
            | nil =>
              have hlen : xs.length ≤ cur := List.drop_eq_nil_iff.mp hpend
              simp only [fvSeekF]
              simp [fvEqual, fvValid]
              omega
            | cons y rest =>
              rw [fvSeekF_cons_ignores fvMakeBegin y rest cur child child']
              exact fvEqual_refl _
          · rw [fvDec_node, fvDec_node, hv, hv']
            simp only [Bool.false_eq_true, if_false]
            cases cur with
            | zero =>
              simp only [fvSeekB]
              by_cases hl : 0 < xs.length
              · have hc : fvValid child = false := by
                  revert hv
                  simp [fvValid, hl]
                have hc' : fvValid child' = false := by
                  revert hv'
                  simp [fvValid, hl]
                simp [fvEqual, fvValid, hc, hc']
              · simp [fvEqual, fvValid, hl]
            | succ c =>
              rw [fvSeekB_succ_ignores (fun e => fvDec (fvMakeEnd e)) xs c child child']
              exact fvEqual_refl _
        · -- both valid with equal children
          obtain ⟨hveq, hdeq, hinceq, hdeceq⟩ := ih child child' hce
          have hcur : cur < xs.length := by
            revert hv
            by_cases hl : cur < xs.length
            · intro _
              exact hl
            · simp [fvValid, hl]
          refine ⟨by rw [hv, hv'], ?_, ?_, ?_⟩
          · simp only [fvDeref, hv, hv', if_true]
            exact hdeq
          · rw [fvInc_node, fvInc_node, hv, hv']
            simp only [if_true]
            obtain ⟨hviq, -, -, -⟩ := ih (fvInc child) (fvInc child') hinceq
            by_cases hcv : fvValid (fvInc child) = true
            · have hcv' : fvValid (fvInc child') = true := by rw [← hviq]; exact hcv
              simp only [hcv, hcv', if_true]
              simp [fvEqual, fvValid, hcur, hcv, hcv', hinceq]
            · have hcvf : fvValid (fvInc child) = false := by
                revert hcv
                cases fvValid (fvInc child) <;> simp
              have hcvf' : fvValid (fvInc child') = false := by rw [← hviq]; exact hcvf
              simp only [hcvf, hcvf', Bool.false_eq_true, if_false]
              cases hpend : xs.drop (cur + 1) with
              | nil =>
                have hlen : xs.length ≤ cur + 1 := List.drop_eq_nil_iff.mp hpend
                simp only [fvSeekF]
                simp [fvEqual, fvValid]
                omega
              | cons y rest =>
                rw [fvSeekF_cons_ignores fvMakeBegin y rest (cur + 1) (fvInc child)
                  (fvInc child')]
                exact fvEqual_refl _
          · rw [fvDec_node, fvDec_node, hv, hv']
            simp only [if_true]
            obtain ⟨hviq, -, -, -⟩ := ih (fvDec child) (fvDec child') hdeceq
            by_cases hcv : fvValid (fvDec child) = true
            · have hcv' : fvValid (fvDec child') = true := by rw [← hviq]; exact hcv
              simp only [hcv, hcv', if_true]
              simp [fvEqual, fvValid, hcur, hcv, hcv', hdeceq]
            · have hcvf : fvValid (fvDec child) = false := by
                revert hcv
                cases fvValid (fvDec child) <;> simp
              have hcvf' : fvValid (fvDec child') = false := by rw [← hviq]; exact hcvf
              simp only [hcvf, hcvf', Bool.false_eq_true, if_false]
              cases cur with
              | zero =>
                simp only [fvSeekB]
                simp [fvEqual, fvValid, hcvf, hcvf']
              | succ c =>
                rw [fvSeekB_succ_ignores (fun e => fvDec (fvMakeEnd e)) xs c (fvDec child)
                  (fvDec child')]
                exact fvEqual_refl _

-- ***************************************************************************
-- Iteration chains
-- ***************************************************************************

theorem fvRun_invalid {α : Type} {n : Nat} (it : FVIter α n) (h : fvValid it = false) :
    ∀ fuel, fvRun fuel it = [] := by
  intro fuel
  cases fuel with
  | zero => rfl
  | succ f => simp [fvRun, h]

theorem Rep2.run {α : Type} [DecidableEq α] {n : Nat} :
    ∀ (post : List α) (ys : Nested α (n + 1)) (it : FVIter α n) (pre : List α),
      Rep2 ys it pre post → ∀ m, fvRun (post.length + m) it = post := by
  intro post
  induction post with
  | nil => intro ys it pre hrep; exact absurd rfl (Rep2.post_ne_nil hrep)
  | cons a rest ihp =>
    intro ys it pre hrep m
    have hfuel : (a :: rest).length + m = (rest.length + m) + 1 := by
      simp
      omega
    rw [hfuel]
    rw [fvRun, Rep2.valid hrep]
    simp only [if_true]
    have hd : fvDeref it = some a := by rw [Rep2.deref hrep]; rfl
    rw [hd]
    by_cases hrest : rest = []
    · subst hrest
      have hinv : fvValid (fvInc it) = false :=
        ((fvInc_spec ys it pre a [] hrep).2 rfl).1
      rw [fvRun_invalid (fvInc it) hinv]
      rfl
    · have hnext : Rep2 ys (fvInc it) (pre ++ [a]) rest :=
        (fvInc_spec ys it pre a rest hrep).1 hrest
      rw [ihp ys (fvInc it) (pre ++ [a]) hnext m]
      rfl

theorem fvIncChain {α : Type} [DecidableEq α] {n : Nat} (ys : Nested α (n + 1)) :
    ∀ (k : Nat), k < (flattenN ys).length →
      Rep2 ys (fvInc^[k] (fvMakeBegin ys)) ((flattenN ys).take k) ((flattenN ys).drop k) := by
  intro k
  induction k with
  | zero =>
    intro hk
    have hne : flattenN ys ≠ [] := by
      intro h0
      rw [h0] at hk
      simp at hk
    simpa using fvMakeBegin_rep2 ys hne
  | succ k ihk =>
    intro hk
    have hk' : k < (flattenN ys).length := by omega
    have hrep := ihk hk'
    have hdropk : (flattenN ys).drop k =
        (flattenN ys).get ⟨k, hk'⟩ :: (flattenN ys).drop (k + 1) := by
      rw [List.get_eq_getElem]
      exact List.drop_eq_getElem_cons hk'
    rw [hdropk] at hrep
    have hrest : (flattenN ys).drop (k + 1) ≠ [] := by
      intro h0
      have hlen0 := congrArg List.length h0
      simp at hlen0
      omega
    have hstep := (fvInc_spec ys _ _ _ _ hrep).1 hrest
    rw [Function.iterate_succ_apply']
    have htake : (flattenN ys).take k ++ [(flattenN ys).get ⟨k, hk'⟩] =
        (flattenN ys).take (k + 1) := by
      rw [List.get_eq_getElem]
      exact List.take_concat_get' (flattenN ys) k hk'
    rw [← htake]
    exact hstep

theorem fvIncChain_end {α : Type} [DecidableEq α] {n : Nat} (ys : Nested α (n + 1)) :
    fvValid (fvInc^[(flattenN ys).length] (fvMakeBegin ys)) = false ∧
    fvEqual (fvInc^[(flattenN ys).length] (fvMakeBegin ys)) (fvMakeEnd ys) = true := by
  cases hN : (flattenN ys).length with
  | zero =>
    have hnil : flattenN ys = [] := List.length_eq_zero.mp hN
    simpa using fvMakeBegin_empty ys hnil
  | succ k =>
    have hk : k < (flattenN ys).length := by omega
    have hrep := fvIncChain ys k hk
    have hdropk : (flattenN ys).drop k =
        (flattenN ys).get ⟨k, hk⟩ :: (flattenN ys).drop (k + 1) := by
      rw [List.get_eq_getElem]
      exact List.drop_eq_getElem_cons hk
    have hrest : (flattenN ys).drop (k + 1) = [] :=
      List.drop_eq_nil_of_le (by omega)
    rw [hdropk, hrest] at hrep
    have hstep := (fvInc_spec ys _ _ _ _ hrep).2 rfl
    rw [Function.iterate_succ_apply']
    exact hstep

theorem fvDecChain {α : Type} [DecidableEq α] {n : Nat} :
    ∀ (pre : List α) (ys : Nested α (n + 1)) (it : FVIter α n) (post : List α),
      Rep2 ys it pre post → fvDec^[pre.length] it = fvMakeBegin ys := by
  intro pre
  induction pre using List.reverseRecOn with
  | nil =>
    intro ys it post hrep
    have hne : flattenN ys ≠ [] := by
      intro h0
      have hflat0 := Rep2.flat hrep
      rw [h0] at hflat0
      simp at hflat0
      exact Rep2.post_ne_nil hrep hflat0
    have hflat := Rep2.flat hrep
    simp at hflat
    have hB := fvMakeBegin_rep2 ys hne
    rw [← hflat] at hB
    exact Rep2.unique ys it (fvMakeBegin ys) [] post hrep hB
  | append_singleton p b ihp =>
    intro ys it post hrep
    have hstep := (fvDec_spec.1) ys it p b post hrep
    have hlen : (p ++ [b]).length = p.length + 1 := by simp
    rw [hlen, Function.iterate_succ_apply]
    exact ihp ys (fvDec it) (b :: post) hstep

theorem fvEqual_iterate_dec {α : Type} [DecidableEq α] {n : Nat}
    (it it' : FVIter α n) (h : fvEqual it it' = true) :
    ∀ k, fvEqual (fvDec^[k] it) (fvDec^[k] it') = true := by
  intro k
  induction k with
  | zero => exact h
  | succ k ihk =>
    rw [Function.iterate_succ_apply', Function.iterate_succ_apply']
    exact (fvEqual_congr _ _ ihk).2.2.2

/-- Round-trip: `k` increments from `begin()` followed by `k` decrements return
to an iterator equal (by the iterator equality) to `begin()`, with the same
dereference behaviour. -/
theorem fv_roundtrip_general {α : Type} [DecidableEq α] {n : Nat} (ys : Nested α (n + 1))
    (k : Nat) (hk : k ≤ scalarSize ys) :
    fvEqual (fvDec^[k] (fvInc^[k] (fvMakeBegin ys))) (fvMakeBegin ys) = true ∧
    fvDeref (fvDec^[k] (fvInc^[k] (fvMakeBegin ys))) = fvDeref (fvMakeBegin ys) := by
  have hN : scalarSize ys = (flattenN ys).length := (length_flattenN ys).symm
  rw [hN] at hk
  by_cases hlt : k < (flattenN ys).length
  · have hrep := fvIncChain ys k hlt
    have hchain := fvDecChain ((flattenN ys).take k) ys _ _ hrep
    have hlen : ((flattenN ys).take k).length = k := by
      rw [List.length_take]
      omega
    rw [hlen] at hchain
    rw [hchain]
    exact ⟨fvEqual_refl _, rfl⟩
  · have hkN : k = (flattenN ys).length := by omega
    subst hkN
    rcases List.eq_nil_or_concat' (flattenN ys) with hemp | ⟨p, b, hpb⟩
    · rw [hemp]
      exact ⟨fvEqual_refl _, rfl⟩
    · obtain ⟨hinv, hend⟩ := fvIncChain_end ys
      have hrepE := (fvDec_spec.2.1) ys p b hpb
      have hchain := fvDecChain p ys _ _ hrepE
      have hplen : (flattenN ys).length = p.length + 1 := by
        rw [hpb]
        simp
      have hdecE : fvDec^[(flattenN ys).length] (fvMakeEnd ys) = fvMakeBegin ys := by
        rw [hplen, Function.iterate_succ_apply]
        exact hchain
      have hiter := fvEqual_iterate_dec _ _ hend (flattenN ys).length
      rw [hdecE] at hiter
      exact ⟨hiter, (fvEqual_congr _ _ hiter).2.1⟩

-- ***************************************************************************
-- Full forward runs and the size of a run
-- ***************************************************************************

theorem fvRun_length_le {α : Type} {n : Nat} :
    ∀ (fuel : Nat) (it : FVIter α n), (fvRun fuel it).length ≤ fuel := by
  intro fuel
  induction fuel with
  | zero => intro it; simp [fvRun]
  | succ f ihf =>
    intro it
    rw [fvRun]
    by_cases hv : fvValid it
    · rw [if_pos hv, List.length_append]
      have h1 : (fvDeref it).toList.length ≤ 1 := by
        cases fvDeref it <;> simp
      have h2 := ihf (fvInc it)
      omega
    · rw [if_neg hv]
      simp

theorem fvRun_full {α : Type} [DecidableEq α] {n : Nat} (x : Nested α (n + 1)) (m : Nat) :
    fvRun (scalarSize x + m) (fvMakeBegin x) = flattenN x := by
  by_cases hne : flattenN x = []
  · rw [fvRun_invalid _ (fvMakeBegin_empty x hne).1 (scalarSize x + m), hne]
  · have hrep := fvMakeBegin_rep2 x hne
    have hrun := Rep2.run (flattenN x) x (fvMakeBegin x) [] hrep m
    rw [length_flattenN] at hrun
    exact hrun

theorem fvSeqEqual_run {α : Type} [DecidableEq α] :
    ∀ (fuel : Nat) {n m : Nat} (it : FVIter α n) (jt : FVIter α m),
      (fvRun fuel it).length = fuel → (fvRun fuel jt).length = fuel →
      (fvSeqEqual fuel it jt = true ↔ fvRun fuel it = fvRun fuel jt) := by
  intro fuel
  induction fuel with
  | zero =>
    intro n m it jt h1 h2
    simp [fvSeqEqual, fvRun]
  | succ f ihf =>
    intro n m it jt h1 h2
    cases hvit : fvValid it with
    | false =>
      rw [fvRun_invalid it hvit (f + 1)] at h1
      simp at h1
    | true =>
      cases hvjt : fvValid jt with
      | false =>
        rw [fvRun_invalid jt hvjt (f + 1)] at h2
        simp at h2
      | true =>
        rw [fvRun, if_pos hvit, List.length_append] at h1
        rw [fvRun, if_pos hvjt, List.length_append] at h2
        obtain ⟨a, ha⟩ : ∃ a, fvDeref it = some a := by
          cases hd : fvDeref it with
          | none =>
            rw [hd] at h1
            have := fvRun_length_le f (fvInc it)
            simp at h1
            omega
          | some a => exact ⟨a, rfl⟩
        obtain ⟨b, hb⟩ : ∃ b, fvDeref jt = some b := by
          cases hd : fvDeref jt with
          | none =>
            rw [hd] at h2
            have := fvRun_length_le f (fvInc jt)
            simp at h2
            omega
          | some b => exact ⟨b, rfl⟩
        rw [ha] at h1
        rw [hb] at h2
        have h1' : (fvRun f (fvInc it)).length = f := by simp at h1; omega
        have h2' : (fvRun f (fvInc jt)).length = f := by simp at h2; omega
        have hih := ihf (fvInc it) (fvInc jt) h1' h2'
        have hseq : fvSeqEqual (f + 1) it jt =
            (decide (fvDeref it = fvDeref jt) && fvSeqEqual f (fvInc it) (fvInc jt)) := by
          rw [fvSeqEqual, if_pos hvit]
        rw [hseq, ha, hb, fvRun, if_pos hvit, fvRun, if_pos hvjt, ha, hb]
        show _ = true ↔ a :: fvRun f (fvInc it) = b :: fvRun f (fvInc jt)
        rw [Bool.and_eq_true, decide_eq_true_eq, hih, List.cons_eq_cons, Option.some_inj]

-- ***************************************************************************
-- The claims about FlatView iteration and equality
-- ***************************************************************************

/-- C1: iterating a FlatView over a nested range front-to-back yields exactly
`scalarSize` many elements, namely the depth-first left-to-right leaf sequence
(`flattenN`); extra fuel beyond `scalarSize` is never used (the iteration has
already stopped), and after `scalarSize` increments the iterator equals the
`end()` iterator. Well-formedness of the range (siblings agreeing on
dimensionality) is built into the typed embedding `Nested α n`. -/
theorem C1_forward_iteration_is_depth_first {α : Type} [DecidableEq α] {n : Nat}
    (x : Nested α (n + 1)) (m : Nat) :
    fvSeq x = flattenN x ∧
    (fvSeq x).length = scalarSize x ∧
    fvRun (scalarSize x + m) (fvMakeBegin x) = flattenN x ∧
    fvEqual (fvInc^[scalarSize x] (fvMakeBegin x)) (fvMakeEnd x) = true := by
  have hseq : fvSeq x = flattenN x := by
    have := fvRun_full x 0
    simpa [fvSeq] using this
  refine ⟨hseq, ?_, fvRun_full x m, ?_⟩
  · rw [hseq, length_flattenN]
  · rw [← length_flattenN]
    exact (fvIncChain_end x).2

/-- C5: incrementing `begin()` any `k ≤ scalarSize` times and then
decrementing `k` times returns to an iterator equal to `begin()` (by the
iterator's own equality), with the same dereference; concretely, over
`{{},{1,2,3},{4},{},{},{5,6}}` the forward run is `[1,2,3,4,5,6]` and the
backward run from `end()` is `[6,5,4,3,2,1]`. -/
theorem C5_increment_decrement_roundtrip {α : Type} [DecidableEq α] {n : Nat}
    (ys : Nested α (n + 1)) (k : Nat) (hk : k ≤ scalarSize ys) :
    (fvEqual (fvDec^[k] (fvInc^[k] (fvMakeBegin ys))) (fvMakeBegin ys) = true ∧
     fvDeref (fvDec^[k] (fvInc^[k] (fvMakeBegin ys))) = fvDeref (fvMakeBegin ys)) ∧
    fvSeq uriahFuller = [1, 2, 3, 4, 5, 6] ∧
    fvRunBack (scalarSize uriahFuller) (fvMakeEnd uriahFuller) = [6, 5, 4, 3, 2, 1] :=
  ⟨fv_roundtrip_general ys k hk, by decide, by decide⟩

theorem C5_increment_decrement_roundtrip_witness :
    (3 : Nat) ≤ scalarSize uriahFuller ∧
    ((fvEqual (fvDec^[3] (fvInc^[3] (fvMakeBegin uriahFuller)))
        (fvMakeBegin uriahFuller) = true ∧
      fvDeref (fvDec^[3] (fvInc^[3] (fvMakeBegin uriahFuller))) =
        fvDeref (fvMakeBegin uriahFuller)) ∧
     fvSeq uriahFuller = [1, 2, 3, 4, 5, 6] ∧
     fvRunBack (scalarSize uriahFuller) (fvMakeEnd uriahFuller) = [6, 5, 4, 3, 2, 1]) :=
  ⟨by decide, C5_increment_decrement_roundtrip uriahFuller 3 (by decide)⟩

/-- C10: `FlatView::operator==` (size check plus `std::equal` walk) holds
exactly when the two flattened leaf sequences coincide — the arrangement of
leaves into subranges and the identity of the containers are irrelevant;
concretely, views of `{{},{1,2,3},{4},{},{},{5,6}}` and
`{{1},{2,3},{},{},{},{4,5,6}}` compare equal. -/
theorem C10_flatview_equality_is_flattened_equality {α : Type} [DecidableEq α]
    {n m : Nat} (x : Nested α (n + 1)) (y : Nested α (m + 1)) :
    (fvViewEq x y = true ↔ flattenN x = flattenN y) ∧
    fvViewEq uriahFuller uriahFullerAlt = true := by
  constructor
  · constructor
    · intro h
      rw [fvViewEq, Bool.and_eq_true, decide_eq_true_eq] at h
      obtain ⟨hsz, hseq⟩ := h
      have hx := fvRun_full x 0
      have hy := fvRun_full y 0
      rw [Nat.add_zero] at hx hy
      have hy' : fvRun (scalarSize x) (fvMakeBegin y) = flattenN y := by
        rw [hsz]
        exact hy
      have hlenx : (fvRun (scalarSize x) (fvMakeBegin x)).length = scalarSize x := by
        rw [hx, length_flattenN]
      have hleny : (fvRun (scalarSize x) (fvMakeBegin y)).length = scalarSize x := by
        rw [hy', length_flattenN, hsz]
      have := (fvSeqEqual_run (scalarSize x) _ _ hlenx hleny).mp hseq
      rw [hx, hy'] at this
      exact this
    · intro h
      rw [fvViewEq, Bool.and_eq_true, decide_eq_true_eq]
      have hsz : scalarSize x = scalarSize y := by
        rw [← length_flattenN, ← length_flattenN, h]
      refine ⟨hsz, ?_⟩
      have hx := fvRun_full x 0
      have hy := fvRun_full y 0
      rw [Nat.add_zero] at hx hy
      have hy' : fvRun (scalarSize x) (fvMakeBegin y) = flattenN y := by
        rw [hsz]
        exact hy
      have hlenx : (fvRun (scalarSize x) (fvMakeBegin x)).length = scalarSize x := by
        rw [hx, length_flattenN]
      have hleny : (fvRun (scalarSize x) (fvMakeBegin y)).length = scalarSize x := by
        rw [hy', length_flattenN, hsz]
      exact (fvSeqEqual_run (scalarSize x) _ _ hlenx hleny).mpr (by rw [hx, hy', h])
  · decide

-- ***************************************************************************
-- The bounds computation: refinement of the specification and the guard
-- ***************************************************************************

theorem except_bind_ok {ε α β : Type} (a : α) (f : α → Except ε β) :
    Except.bind (.ok a) f = f a := rfl

theorem except_bind_error {ε α β : Type} (e : ε) (f : α → Except ε β) :
    Except.bind (Except.error e) f = (Except.error e : Except ε β) := rfl

theorem foldl_zipWith_length {β : Type} (spec : β → List Nat) (dm1 : Nat)
    (hlen : ∀ c, (spec c).length = dm1) :
    ∀ (l : List β) (acc : List Nat), acc.length = dm1 →
      (l.foldl (fun a c => List.zipWith max a (spec c)) acc).length = dm1 := by
  intro l
  induction l with
  | nil => intro acc h; simpa using h
  | cons c rest ih =>
    intro acc h
    rw [List.foldl_cons]
    exact ih _ (by rw [List.length_zipWith, h, hlen c]; exact Nat.min_self dm1)

theorem foldl_zipWith_getD {β : Type} (spec : β → List Nat) (dm1 : Nat)
    (hlen : ∀ c, (spec c).length = dm1) (j : Nat) (hj : j < dm1) :
    ∀ (l : List β) (acc : List Nat), acc.length = dm1 →
      (l.foldl (fun a c => List.zipWith max a (spec c)) acc).getD j 0 =
        l.foldl (fun m c => max m ((spec c).getD j 0)) (acc.getD j 0) := by
  intro l
  induction l with
  | nil => intro acc _; rfl
  | cons c rest ih =>
    intro acc h
    rw [List.foldl_cons, List.foldl_cons]
    rw [ih _ (by rw [List.length_zipWith, h, hlen c]; exact Nat.min_self dm1)]
    have hzip : (List.zipWith max acc (spec c)).getD j 0 =
        max (acc.getD j 0) ((spec c).getD j 0) := by
      have hja : j < acc.length := by omega
      have hjc : j < (spec c).length := by rw [hlen c]; exact hj
      have hjz : j < (List.zipWith max acc (spec c)).length := by
        rw [List.length_zipWith, h, hlen c]
        simpa using hj
      rw [List.getD_eq_getElem _ _ hjz, List.getD_eq_getElem _ _ hja,
        List.getD_eq_getElem _ _ hjc, List.getElem_zipWith]
    rw [hzip]

theorem zipWith_max_replicate_zero :
    ∀ (l : List Nat), List.zipWith max (List.replicate l.length 0) l = l := by
  intro l
  induction l with
  | nil => rfl
  | cons a t ih =>
    rw [List.length_cons, List.replicate_succ, List.zipWith_cons_cons, ih, Nat.zero_max]

theorem zipWith_max_replicate_eq (dm1 : Nat) (l : List Nat) (h : l.length = dm1) :
    List.zipWith max (List.replicate dm1 0) l = l := by
  subst h
  exact zipWith_max_replicate_zero l

theorem specBounds_length {α : Type} : ∀ {k : Nat} (x : Nested α k),
    (specBounds x).length = k := by
  intro k
  induction k with
  | zero => intro x; rfl
  | succ m ih =>
    intro x
    cases m with
    | zero => rfl
    | succ m' =>
      show (specBounds (n := m' + 2) x).length = m' + 2
      rw [specBounds, List.length_cons,
        foldl_zipWith_length (specBounds (n := m' + 1)) (m' + 1) (fun c => ih c) x
          (List.replicate (m' + 1) 0) (by simp)]

theorem boundsLoop_spec {β : Type} (bnds : β → Except MdErr (List Nat))
    (spec : β → List Nat) (dm1 : Nat)
    (hok : ∀ c, bnds c = .ok (spec c)) (hlen : ∀ c, (spec c).length = dm1) :
    ∀ (l : List β) (a : List Nat),
      boundsLoop bnds dm1 (some a) l =
        .ok (l.foldl (fun x c => List.zipWith max x (spec c)) a) := by
  intro l
  induction l with
  | nil => intro a; rfl
  | cons c rest ih =>
    intro a
    rw [boundsLoop, hok c, except_bind_ok]
    show (if (spec c).length ≠ dm1 then _ else _) = _
    rw [if_neg (by simp [hlen c]), ih, List.foldl_cons]

theorem boundsN_ok {α : Type} : ∀ {k : Nat} (x : Nested α k),
    boundsN x = .ok (specBounds x) := by
  intro k
  induction k with
  | zero => intro x; rfl
  | succ m ih =>
    intro x
    cases m with
    | zero => rfl
    | succ m' =>
      show boundsN (n := m' + 2) x = .ok (specBounds (n := m' + 2) x)
      rw [boundsN, specBounds]
      cases x with
      | nil => rfl
      | cons c rest =>
        rw [boundsLoop, ih c, except_bind_ok]
        show Except.bind (if (specBounds c).length ≠ m' + 1 then _ else _) _ = _
        rw [if_neg (by simp [specBounds_length c]),
          boundsLoop_spec (boundsN (n := m' + 1)) (specBounds (n := m' + 1)) (m' + 1)
            (fun d => ih d) (fun d => specBounds_length d) rest (specBounds c),
          except_bind_ok, List.foldl_cons]
        have hrep := zipWith_max_replicate_eq (m' + 1) (specBounds c) (specBounds_length c)
        rw [hrep]

/-- C4: the typed `bounds` never fails and returns exactly the bounds vector
described by the spec: length = dimensionality, element 0 the exact range
length, each deeper element the elementwise maximum over all children of the
child bound at that dimension (the first-child copy followed by max-folding
is that maximum, zero without children); concretely
`bounds({{1,2,3},{4,5}}) = [2,3]` and `scalarSize` of the same range is 5. -/
theorem C4_bounds_exact_length_then_elementwise_max {α : Type} {n : Nat}
    (xs : Nested α (n + 2)) (j : Nat) (hj : j < n + 1) :
    boundsN xs = .ok (specBounds xs) ∧
    (specBounds xs).length = n + 2 ∧
    (specBounds xs).head? = some xs.length ∧
    (specBounds xs).getD (j + 1) 0 =
      xs.foldl (fun m c => max m ((specBounds c).getD j 0)) 0 ∧
    boundsN (α := Nat) (n := 2) [[1, 2, 3], [4, 5]] = .ok [2, 3] ∧
    scalarSize (α := Nat) (n := 2) [[1, 2, 3], [4, 5]] = 5 := by
  refine ⟨boundsN_ok xs, specBounds_length xs, rfl, ?_, rfl, rfl⟩
  show (xs.length ::
      xs.foldl (fun a c => List.zipWith max a (specBounds (n := n + 1) c))
        (List.replicate (n + 1) 0)).getD (j + 1) 0 = _
  rw [List.getD_cons_succ,
    foldl_zipWith_getD (specBounds (n := n + 1)) (n + 1)
      (fun c => specBounds_length c) j hj xs (List.replicate (n + 1) 0) (by simp)]
  have h0 : (List.replicate (n + 1) 0).getD j 0 = 0 := by
    rw [List.getD_eq_getElem _ _ (by simpa using hj)]
    exact List.getElem_replicate 0 _
  rw [h0]

theorem C4_bounds_exact_length_then_elementwise_max_witness :
    (0 : Nat) < 0 + 1 ∧
    (boundsN (α := Nat) (n := 2) [[1, 2], [3]] =
        .ok (specBounds (α := Nat) (n := 2) [[1, 2], [3]]) ∧
      (specBounds (α := Nat) (n := 2) [[1, 2], [3]]).length = 0 + 2 ∧
      (specBounds (α := Nat) (n := 2) [[1, 2], [3]]).head? =
        some ([[1, 2], [3]] : Nested Nat 2).length ∧
      (specBounds (α := Nat) (n := 2) [[1, 2], [3]]).getD (0 + 1) 0 =
        ([[1, 2], [3]] : Nested Nat 2).foldl
          (fun m c => max m ((specBounds c).getD 0 0)) 0 ∧
      boundsN (α := Nat) (n := 2) [[1, 2, 3], [4, 5]] = .ok [2, 3] ∧
      scalarSize (α := Nat) (n := 2) [[1, 2, 3], [4, 5]] = 5) :=
  ⟨by decide, C4_bounds_exact_length_then_elementwise_max [[1, 2], [3]] 0 (by decide)⟩

-- ***************************************************************************
-- The ShapeMismatch guard on the untyped reflection
-- ***************************************************************************

theorem boundsLenOk_spec {β : Type} (bnds : β → Except MdErr (List Nat)) (dm1 : Nat)
    (l : List β) (h : boundsLenOk bnds dm1 l = true) :
    ∀ p ∈ l, ∃ b, bnds p = .ok b ∧ b.length = dm1 := by
  intro p hp
  have := (List.all_eq_true.mp h) p hp
  cases hb : bnds p with
  | error e => rw [hb] at this; simp at this
  | ok b =>
    rw [hb] at this
    simp at this
    exact ⟨b, rfl, this⟩

theorem boundsLoop_mismatch {β : Type} (bnds : β → Except MdErr (List Nat)) (dm1 : Nat)
    (c : β) (rest : List β) (cb : List Nat)
    (hc : bnds c = .ok cb) (hlen : cb.length ≠ dm1) :
    ∀ (pre : List β), (∀ p ∈ pre, ∃ b, bnds p = .ok b ∧ b.length = dm1) →
      ∀ (acc : Option (List Nat)),
        boundsLoop bnds dm1 acc (pre ++ c :: rest) = .error .shapeMismatch := by
  intro pre
  induction pre with
  | nil =>
    intro _ acc
    cases acc with
    | none =>
      rw [List.nil_append, boundsLoop, hc, except_bind_ok]
      exact if_pos hlen
    | some a =>
      rw [List.nil_append, boundsLoop, hc, except_bind_ok]
      exact if_pos hlen
  | cons p pre' ih =>
    intro hpre acc
    obtain ⟨b, hb, hblen⟩ := hpre p (by simp)
    have hpre' : ∀ q ∈ pre', ∃ b, bnds q = .ok b ∧ b.length = dm1 := by
      intro q hq
      exact hpre q (by simp [hq])
    cases acc with
    | none =>
      rw [List.cons_append, boundsLoop, hb, except_bind_ok]
      show (if b.length ≠ dm1 then _ else _) = _
      rw [if_neg (by simp [hblen])]
      exact ih hpre' (some b)
    | some a =>
      rw [List.cons_append, boundsLoop, hb, except_bind_ok]
      show (if b.length ≠ dm1 then _ else _) = _
      rw [if_neg (by simp [hblen])]
      exact ih hpre' (some (List.zipWith max a b))

theorem rtBoundsFold_eq_boundsLoop {α : Type} (dm1 : Nat) :
    ∀ (l : List (RTree α)) (acc : Option (List Nat)),
      rtBoundsFold dm1 acc l = boundsLoop rtBounds dm1 acc l := by
  intro l
  induction l with
  | nil => intro acc; cases acc <;> rfl
  | cons c rest ih =>
    intro acc
    cases acc with
    | none =>
      rw [rtBoundsFold, boundsLoop]
      cases rtBounds c with
      | error e => rfl
      | ok cb =>
        rw [except_bind_ok, except_bind_ok]
        by_cases h : cb.length ≠ dm1
        · rw [if_pos h, if_pos h]
        · rw [if_neg h, if_neg h, ih (some cb)]
    | some a =>
      rw [rtBoundsFold, boundsLoop]
      cases rtBounds c with
      | error e => rfl
      | ok cb =>
        rw [except_bind_ok, except_bind_ok]
        by_cases h : cb.length ≠ dm1
        · rw [if_pos h, if_pos h]
        · rw [if_neg h, if_neg h, ih (some (List.zipWith max a cb))]

/-- C7: during the bounds computation over a multilevel range, a child whose
own bounds vector does not have length `dimensionality - 1` (siblings
disagreeing on nesting depth, expressible on the untyped reflection `RTree`)
makes the whole computation return the ShapeMismatch error and nothing else —
no partial result. The children before the offending one are assumed
well-formed (`boundsLenOk`); an ill-formed earlier child would already have
stopped the loop. -/
theorem C7_bounds_child_shape_mismatch {α : Type} (pre : List (RTree α))
    (c : RTree α) (rest : List (RTree α)) (cb : List Nat)
    (hd : 2 ≤ rtDim (RTree.range (pre ++ c :: rest)))
    (hpre : boundsLenOk rtBounds (rtDim (RTree.range (pre ++ c :: rest)) - 1) pre = true)
    (hc : rtBounds c = .ok cb)
    (hlen : cb.length ≠ rtDim (RTree.range (pre ++ c :: rest)) - 1) :
    rtBounds (RTree.range (pre ++ c :: rest)) = .error .shapeMismatch := by
  rw [rtBounds, if_neg (by omega)]
  rw [rtBoundsFold_eq_boundsLoop,
    boundsLoop_mismatch rtBounds (rtDim (RTree.range (pre ++ c :: rest)) - 1) c rest cb hc
      hlen pre
      (boundsLenOk_spec rtBounds (rtDim (RTree.range (pre ++ c :: rest)) - 1) pre hpre)
      none]
  rfl

theorem C7_bounds_child_shape_mismatch_witness :
    (2 ≤ rtDim (RTree.range
        ([RTree.range [RTree.scalar (1 : Nat)]] ++ RTree.scalar 2 :: [])) ∧
      boundsLenOk rtBounds
        (rtDim (RTree.range
          ([RTree.range [RTree.scalar (1 : Nat)]] ++ RTree.scalar 2 :: [])) - 1)
        [RTree.range [RTree.scalar (1 : Nat)]] = true ∧
      rtBounds (RTree.scalar (2 : Nat)) = .ok [] ∧
      ([] : List Nat).length ≠ rtDim (RTree.range
        ([RTree.range [RTree.scalar (1 : Nat)]] ++ RTree.scalar 2 :: [])) - 1) ∧
    rtBounds (RTree.range
        ([RTree.range [RTree.scalar (1 : Nat)]] ++ RTree.scalar 2 :: [])) =
      .error .shapeMismatch :=
  ⟨⟨by decide, rfl, rfl, by decide⟩,
    C7_bounds_child_shape_mismatch [RTree.range [RTree.scalar (1 : Nat)]]
      (RTree.scalar 2) [] [] (by decide) rfl rfl (by decide)⟩

-- ***************************************************************************
-- The type traits: scalar detection and dimensionality
-- ***************************************************************************

/-- C9: `IsScalar` holds exactly on non-ranges and classifier-designated
custom scalars; `Dimensionality` is 0 on scalars and otherwise 1 plus the
dimensionality of the stripped element type; under `StringsAsScalars` every
container tower bottoming out in strings loses exactly the one collapsed
string level: `w.length + 1` becomes `w.length` (e.g. `vector<list<string>>`
has dimensionality 2 instead of 3). -/
theorem C9_is_scalar_and_dimensionality (C : CTy → Bool) (t : CTy) (w : List Bool) :
    (IsScalar C t = true ↔ (isRange t = false ∨ C t = true)) ∧
    Dimensionality C t =
      (if IsScalar C t = true then 0 else 1 + Dimensionality C (elemType t)) ∧
    Dimensionality NoCustomScalars (applyTower w .str) = w.length + 1 ∧
    Dimensionality StringsAsScalars (applyTower w .str) = w.length ∧
    Dimensionality NoCustomScalars (.vec (.lst .str)) = 3 ∧
    Dimensionality StringsAsScalars (.vec (.lst .str)) = 2 := by
  refine ⟨?_, ?_, ?_, ?_, rfl, rfl⟩
  · cases t <;> simp [IsScalar, isRange]
  · cases t with
    | base => rfl
    | str =>
      show Dimensionality C .str = if (!true || C .str) = true then 0 else 1 + Dimensionality C .base
      cases hc : C .str <;> simp [Dimensionality, hc]
    | vec u =>
      show Dimensionality C (.vec u) = if (!true || C (.vec u)) = true then 0 else 1 + Dimensionality C u
      cases hc : C (.vec u) <;> simp [Dimensionality, hc]
    | lst u =>
      show Dimensionality C (.lst u) = if (!true || C (.lst u)) = true then 0 else 1 + Dimensionality C u
      cases hc : C (.lst u) <;> simp [Dimensionality, hc]
  · induction w with
    | nil => rfl
    | cons b w ih =>
      cases b <;> (simp [applyTower, Dimensionality, NoCustomScalars, ih]; omega)
  · induction w with
    | nil => rfl
    | cons b w ih =>
      cases b <;> (simp [applyTower, Dimensionality, StringsAsScalars, ih]; omega)

-- ***************************************************************************
-- BoxedView: padding with the default value, the proxy, the error guards
-- ***************************************************************************

theorem except_map_ok {ε α β : Type} (f : α → β) (a : α) :
    Except.map f (.ok a) = (.ok (f a) : Except ε β) := rfl

theorem bvRead_empty {α : Type} :
    ∀ {k : Nat} (ap : List Nat) (d : α) (is : List Nat),
      (List.zip is ap).all (fun q => decide (q.1 < q.2)) = true →
      is.length = k + 1 → ap.length = k + 1 →
      bvRead (bvMakeBegin ([] : List (Nested α k)) ap d) is = .ok d := by
  intro k
  induction k with
  | zero =>
    intro ap d is hall h1 h2
    obtain ⟨i, rfl⟩ : ∃ i, is = [i] := by
      cases is with
      | nil => simp at h1
      | cons i t =>
        cases t with
        | nil => exact ⟨i, rfl⟩
        | cons _ _ => simp at h1
    obtain ⟨b, rfl⟩ : ∃ b, ap = [b] := by
      cases ap with
      | nil => simp at h2
      | cons b t =>
        cases t with
        | nil => exact ⟨b, rfl⟩
        | cons _ _ => simp at h2
    have hib : i < b := by simpa using hall
    rw [bvRead]
    have hadv : bvAdvance (([i].headD 0 : Nat) : Int)
        (bvMakeBegin ([] : List (Nested α 0)) [b] d) =
        .ok ⟨[], 0, [b], (i : Int), d⟩ := by
      rw [bvAdvance]
      rw [if_neg (by simp [bvMakeBegin]; omega)]
      by_cases hi : i = 0
      · subst hi
        rw [if_neg (by simp [bvMakeBegin])]
        simp [bvMakeBegin]
      · rw [if_pos (by simp [bvMakeBegin]; omega)]
        simp [bvMakeBegin]
    rw [hadv, except_bind_ok]
    have hder : bvDerefProxy (⟨[], 0, [b], (i : Int), d⟩ : BVIter α 0) =
        .ok ⟨[], 0, d, false⟩ := by
      rw [bvDerefProxy]
      rw [if_neg (by simp; omega)]
      rw [if_neg (by simp)]
      rfl
    rw [hder, except_bind_ok]
    rw [proxyGet]
    rfl
  | succ k ihk =>
    intro ap d is hall h1 h2
    obtain ⟨i, is', rfl⟩ : ∃ i is', is = i :: is' := by
      cases is with
      | nil => simp at h1
      | cons i t => exact ⟨i, t, rfl⟩
    obtain ⟨b, ap', rfl⟩ : ∃ b ap', ap = b :: ap' := by
      cases ap with
      | nil => simp at h2
      | cons b t => exact ⟨b, t, rfl⟩
    have hzip := by simpa using hall
    obtain ⟨hib, hall'⟩ : i < b ∧
        (List.zip is' ap').all (fun q => decide (q.1 < q.2)) = true := by
      constructor
      · exact hzip.1
      · rw [List.all_eq_true]
        intro q hq
        simpa using hzip.2 q.1 q.2 hq
    rw [bvRead]
    have hadv : bvAdvance (((i :: is').headD 0 : Nat) : Int)
        (bvMakeBegin ([] : List (Nested α (k + 1))) (b :: ap') d) =
        .ok ⟨[], 0, b :: ap', (i : Int), d⟩ := by
      rw [bvAdvance]
      rw [if_neg (by simp [bvMakeBegin]; omega)]
      by_cases hi : i = 0
      · subst hi
        rw [if_neg (by simp [bvMakeBegin])]
        simp [bvMakeBegin]
      · rw [if_pos (by simp [bvMakeBegin]; omega)]
        simp [bvMakeBegin]
    rw [hadv, except_bind_ok]
    have hder : bvDerefChild (⟨[], 0, b :: ap', (i : Int), d⟩ : BVIter α (k + 1)) =
        .ok (bvMakeBegin ([] : List (Nested α k)) ap' d) := by
      rw [bvDerefChild]
      rw [if_neg (by simp; omega)]
      rw [if_neg (by simp)]
      rfl
    rw [hder, except_bind_ok]
    exact ihk ap' d is' hall' (by simpa using h1) (by simpa using h2)

/-- C2: over `{{},{1,2,3},{4},{},{},{5,6}}` with default 42 and natural bounds
`[6,3]`, reading `[2][0]` gives 4, `[2][1]` and `[2][2]` give the default 42
(row `{4}` is padded), and `[2][3]` hits the apparent bound and fails with
OutOfBounds; in general a dereference at or beyond the physical extent (but
inside the apparent bounds) yields the empty placeholder child, and every
in-bounds read through such an empty child resolves to the shared default. -/
theorem C2_boxedview_padding_reads {α : Type} {k : Nat}
    (it : BVIter α (k + 1)) (ap : List Nat) (d : α) (is : List Nat)
    (hge : (it.xs.length : Int) ≤ it.index) (hne : it.index ≠ -1)
    (hlt : it.index ≠ (it.apparent.headD 0 : Int))
    (hall : (List.zip is ap).all (fun q => decide (q.1 < q.2)) = true)
    (h1 : is.length = k + 1) (h2 : ap.length = k + 1) :
    bvDerefChild it = .ok (bvMakeBegin [] it.apparent.tail it.dflt) ∧
    bvRead (bvMakeBegin ([] : List (Nested α k)) ap d) is = .ok d ∧
    makeBoxedView (k := 1) uriahFuller (42 : Nat) [] = .ok ⟨uriahFuller, [6, 3], 42⟩ ∧
    bvRead (bvBegin (⟨uriahFuller, [6, 3], 42⟩ : BView Nat 1)) [2, 0] = .ok 4 ∧
    bvRead (bvBegin (⟨uriahFuller, [6, 3], 42⟩ : BView Nat 1)) [2, 1] = .ok 42 ∧
    bvRead (bvBegin (⟨uriahFuller, [6, 3], 42⟩ : BView Nat 1)) [2, 2] = .ok 42 ∧
    bvRead (bvBegin (⟨uriahFuller, [6, 3], 42⟩ : BView Nat 1)) [2, 3] =
      .error .outOfBounds := by
  refine ⟨?_, bvRead_empty ap d is hall h1 h2, rfl, rfl, rfl, rfl, rfl⟩
  rw [bvDerefChild]
  rw [if_neg (by push_neg; exact ⟨hne, hlt⟩)]
  rw [if_neg (by push_neg; intro _; omega)]

theorem C2_boxedview_padding_reads_witness :
    ((bvPadIter.xs.length : Int) ≤ bvPadIter.index ∧
      bvPadIter.index ≠ -1 ∧
      bvPadIter.index ≠ (bvPadIter.apparent.headD 0 : Int) ∧
      (List.zip [1, 1] [2, 2]).all (fun q => decide (q.1 < q.2)) = true ∧
      ([1, 1] : List Nat).length = 1 + 1 ∧
      ([2, 2] : List Nat).length = 1 + 1) ∧
    (bvDerefChild bvPadIter =
        .ok (bvMakeBegin [] bvPadIter.apparent.tail bvPadIter.dflt) ∧
      bvRead (bvMakeBegin ([] : List (Nested Nat 1)) [2, 2] 42) [1, 1] = .ok 42 ∧
      makeBoxedView (k := 1) uriahFuller (42 : Nat) [] = .ok ⟨uriahFuller, [6, 3], 42⟩ ∧
      bvRead (bvBegin (⟨uriahFuller, [6, 3], 42⟩ : BView Nat 1)) [2, 0] = .ok 4 ∧
      bvRead (bvBegin (⟨uriahFuller, [6, 3], 42⟩ : BView Nat 1)) [2, 1] = .ok 42 ∧
      bvRead (bvBegin (⟨uriahFuller, [6, 3], 42⟩ : BView Nat 1)) [2, 2] = .ok 42 ∧
      bvRead (bvBegin (⟨uriahFuller, [6, 3], 42⟩ : BView Nat 1)) [2, 3] =
        .error .outOfBounds) :=
  ⟨⟨by decide, by decide, by decide, by decide, by decide, by decide⟩,
    C2_boxedview_padding_reads bvPadIter [2, 2] 42 [1, 1]
      (by decide) (by decide) (by decide) (by decide) (by decide) (by decide)⟩

/-- C3: dereferencing a leaf-level BoxedView iterator at an in-range logical
index below the physical bound yields a valid proxy to `current_`; reading a
valid proxy returns the target's value and assigning through it writes the
target; reading an invalid proxy returns the shared default and assigning
through it leaves the underlying range unchanged (the assignment operator has
no throw path: its translation is a total function). -/
theorem C3_scalar_proxy_read_write_frame {α : Type} (it : BVIter α 0) (v : α)
    (q : List α) (j : Nat) (d : α) (w : α)
    (hne1 : it.index ≠ -1) (hne2 : it.index ≠ (it.apparent.headD 0 : Int))
    (hv : 0 ≤ it.index ∧ it.index < (it.xs.length : Int)) :
    bvDerefProxy it = .ok ⟨it.xs, it.cur.toNat, it.dflt, true⟩ ∧
    proxyGet ⟨it.xs, it.cur.toNat, it.dflt, true⟩ = it.xs.getD it.cur.toNat it.dflt ∧
    proxySet ⟨it.xs, it.cur.toNat, it.dflt, true⟩ v = it.xs.set it.cur.toNat v ∧
    proxyGet ⟨q, j, d, false⟩ = d ∧
    proxySet ⟨q, j, d, false⟩ w = q := by
  refine ⟨?_, rfl, rfl, rfl, rfl⟩
  rw [bvDerefProxy]
  rw [if_neg (by push_neg; exact ⟨hne1, hne2⟩)]
  rw [if_pos hv]

theorem C3_scalar_proxy_read_write_frame_witness :
    (bvLeafIter.index ≠ -1 ∧
      bvLeafIter.index ≠ (bvLeafIter.apparent.headD 0 : Int) ∧
      (0 ≤ bvLeafIter.index ∧ bvLeafIter.index < (bvLeafIter.xs.length : Int))) ∧
    (bvDerefProxy bvLeafIter =
        .ok ⟨bvLeafIter.xs, bvLeafIter.cur.toNat, bvLeafIter.dflt, true⟩ ∧
      proxyGet ⟨bvLeafIter.xs, bvLeafIter.cur.toNat, bvLeafIter.dflt, true⟩ =
        bvLeafIter.xs.getD bvLeafIter.cur.toNat bvLeafIter.dflt ∧
      proxySet ⟨bvLeafIter.xs, bvLeafIter.cur.toNat, bvLeafIter.dflt, true⟩ 3 =
        bvLeafIter.xs.set bvLeafIter.cur.toNat 3 ∧
      proxyGet ⟨([4] : List Nat), 0, 6, false⟩ = 6 ∧
      proxySet ⟨([4] : List Nat), 0, 6, false⟩ 1 = [4]) :=
  ⟨⟨by decide, by decide, by decide⟩,
    C3_scalar_proxy_read_write_frame bvLeafIter 3 [4] 0 6 1
      (by decide) (by decide) (by decide)⟩

-- ***************************************************************************
-- C6: who raises OutOfBounds, and who does not
-- ***************************************************************************

/-- C6 counterexample: for the FlatView iterator, walking past the valid
range raises nothing — `increment` at `end()` is a silent no-op that leaves
the iterator at `end()`, and `decrement` at `begin()` silently produces the
invalid before-first state; no OutOfBounds (nor any other error) arises from
the moves themselves, contradicting the claim that advancing a FlatView
iterator beyond its valid logical range raises OutOfBounds at the point of
violation. (Both transitions are total functions; the only throw in the
iterator's source is in `dereference`.) -/
theorem C6_counterexample_flatview_moves_never_throw :
    fvInc (fvMakeEnd ([[1]] : Nested Nat 2)) = fvMakeEnd ([[1]] : Nested Nat 2) ∧
    fvValid (fvDec (fvMakeBegin ([[1]] : Nested Nat 2))) = false ∧
    fvDerefE (fvDec (fvMakeBegin ([[1]] : Nested Nat 2))) = .error .outOfBounds :=
  ⟨rfl, rfl, rfl⟩

/-- C6 (amended): OutOfBounds is raised synchronously by the operations that
actually contain the throw: `FlatViewIterator::dereference` on any invalid
iterator (valid iterators dereference to their scalar), and the BoxedView
iterator's `increment` at the apparent bound, `decrement` at
ONE_BEFORE_THE_FIRST, `advance` moving outside `[-1, apparentBounds[0]]`, and
`dereference` (both levels) at either sentinel; the FlatView `increment` and
`decrement` never throw (they are total transitions, see the counterexample). -/
theorem C6_amended_out_of_bounds_sources {α : Type} {n k : Nat}
    (it : FVIter α n) (h : fvValid it = false)
    (ys : Nested α (n + 1)) (jt : FVIter α n) (pre : List α) (a : α) (rest : List α)
    (hrep : Rep2 ys jt pre (a :: rest))
    (bt : BVIter α k) (hb : bt.index = (bt.apparent.headD 0 : Int))
    (ct : BVIter α k) (hc : ct.index = -1)
    (dt : BVIter α k) (m : Int)
    (hm : dt.index + m > (dt.apparent.headD 0 : Int) ∨ dt.index + m < -1)
    (pt : BVIter α 0) (hp : pt.index = -1 ∨ pt.index = (pt.apparent.headD 0 : Int))
    (qt : BVIter α (k + 1)) (hq : qt.index = -1 ∨ qt.index = (qt.apparent.headD 0 : Int)) :
    fvDerefE it = .error .outOfBounds ∧
    fvDerefE jt = .ok a ∧
    bvInc bt = .error .outOfBounds ∧
    bvDec ct = .error .outOfBounds ∧
    bvAdvance m dt = .error .outOfBounds ∧
    bvDerefProxy pt = .error .outOfBounds ∧
    bvDerefChild qt = .error .outOfBounds := by
  refine ⟨?_, ?_, ?_, ?_, ?_, ?_, ?_⟩
  · cases it with
    | leaf xs v cur =>
      have hv : v = false := h
      rw [fvDerefE, fvDeref, hv]
      rfl
    | node xs cur child =>
      rw [fvDerefE, fvDeref, h]
      rfl
  · have hd := Rep2.deref hrep
    rw [fvDerefE, hd]
    rfl
  · rw [bvInc, if_pos hb]
  · rw [bvDec, if_pos hc]
  · rw [bvAdvance, if_pos hm]
  · rw [bvDerefProxy, if_pos hp]
  · rw [bvDerefChild, if_pos hq]

theorem C6_amended_out_of_bounds_sources_witness :
    (fvValid fvInvalidLeaf = false ∧
      bvIncEndIter.index = (bvIncEndIter.apparent.headD 0 : Int) ∧
      bvDecFirstIter.index = -1 ∧
      (bvAdvIter.index + 5 > (bvAdvIter.apparent.headD 0 : Int) ∨
        bvAdvIter.index + 5 < -1) ∧
      (bvIncEndIter.index = -1 ∨
        bvIncEndIter.index = (bvIncEndIter.apparent.headD 0 : Int)) ∧
      (bvChildErrIter.index = -1 ∨
        bvChildErrIter.index = (bvChildErrIter.apparent.headD 0 : Int))) ∧
    (fvDerefE fvInvalidLeaf = .error .outOfBounds ∧
      fvDerefE (fvMakeBegin ([5] : Nested Nat 1)) = .ok 5 ∧
      bvInc bvIncEndIter = .error .outOfBounds ∧
      bvDec bvDecFirstIter = .error .outOfBounds ∧
      bvAdvance 5 bvAdvIter = .error .outOfBounds ∧
      bvDerefProxy bvIncEndIter = .error .outOfBounds ∧
      bvDerefChild bvChildErrIter = .error .outOfBounds) :=
  ⟨⟨rfl, by decide, by decide, by decide, by decide, by decide⟩,
    C6_amended_out_of_bounds_sources fvInvalidLeaf rfl
      ([5] : Nested Nat 1) (fvMakeBegin ([5] : Nested Nat 1)) [] 5 []
      (fvMakeBegin_rep2 ([5] : Nested Nat 1) (by decide))
      bvIncEndIter (by decide)
      bvDecFirstIter (by decide)
      bvAdvIter 5 (by decide)
      bvIncEndIter (by decide)
      bvChildErrIter (by decide)⟩

-- ***************************************************************************
-- C8: the apparent-bounds argument of makeBoxedView
-- ***************************************************************************

/-- C8: `makeBoxedView` with an empty apparent-bounds argument constructs the
view with the natural bounds computed by `bounds`; a non-empty argument whose
length differs from the range's dimensionality fails with BoundsMismatch
before any view exists; a non-empty argument of the right length is taken as
given. -/
theorem C8_make_boxed_view_bounds_argument {α : Type} {k : Nat}
    (xs : Nested α (k + 1)) (d : α)
    (ap : List Nat) (hne : ap ≠ []) (hlen : ap.length ≠ k + 1)
    (ap2 : List Nat) (hne2 : ap2 ≠ []) (hlen2 : ap2.length = k + 1) :
    makeBoxedView xs d [] = .ok ⟨xs, specBounds xs, d⟩ ∧
    makeBoxedView xs d ap = .error .boundsMismatch ∧
    makeBoxedView xs d ap2 = .ok ⟨xs, ap2, d⟩ := by
  refine ⟨?_, ?_, ?_⟩
  · rw [makeBoxedView, if_pos (List.isEmpty_nil), boundsN_ok, except_map_ok]
  · rw [makeBoxedView, if_neg (by simp [hne]), if_pos hlen]
  · rw [makeBoxedView, if_neg (by simp [hne2]), if_neg (by simp [hlen2])]

theorem C8_make_boxed_view_bounds_argument_witness :
    ((([1] : List Nat) ≠ [] ∧ ([1] : List Nat).length ≠ 1 + 1 ∧
      ([4, 2] : List Nat) ≠ [] ∧ ([4, 2] : List Nat).length = 1 + 1) ∧
    (makeBoxedView (k := 1) uriahFuller (42 : Nat) [] =
        .ok ⟨uriahFuller, specBounds (α := Nat) (n := 2) uriahFuller, 42⟩ ∧
      makeBoxedView (k := 1) uriahFuller (42 : Nat) [1] = .error .boundsMismatch ∧
      makeBoxedView (k := 1) uriahFuller (42 : Nat) [4, 2] = .ok ⟨uriahFuller, [4, 2], 42⟩)) :=
  ⟨⟨by decide, by decide, by decide, by decide⟩,
    C8_make_boxed_view_bounds_argument uriahFuller 42 [1] (by decide) (by decide)
      [4, 2] (by decide) (by decide)⟩

end multidim

